import Mathlib

/-!
# shellish: the command-line parser and the command dispatcher

A shallow embedding of `src/shellish-skeleton.c` (`parse_command`,
`process_command`, `main`).

Conventions of the embedding.

* A `char` is a `Char`; the terminator is `NUL`.  A `char *` is modelled by the
  memory that starts at the pointer: a `List Char` that runs to the end of the
  modelled buffer.  The C string at a pointer is the part before the first `NUL`
  (`cstr`).  Reading past the end of the modelled memory has no defined result and
  is `none`.
* `parse_command` writes into its buffer only terminators (`strtok`, the right
  trim) and one blank (the pipe branch).  Each function below receives the memory
  as it is at the moment the C code reads it.
* `malloc` does not initialise memory.  The block that line 146 allocates for the
  next stage is given by `alloc d`, where `d` is the nesting depth of the pipe:
  its fields are whatever the allocator left there.
* The array `temp_buf[1024]` of `parse_command` (line 121) has its capacity: the
  unchecked `strcpy(arg, pch)` of line 128 needs `strlen(pch) + 1 <= 1024`, and a
  longer token writes past the array, which has no defined result and is `none`.
  The name of a stage is copied into a block of `strlen(pch) + 1` bytes (lines
  113-114) and has no such limit.  The buffer `buf[4096]` belongs to `prompt`, the
  caller: `parse_command` receives a pointer and never looks at that capacity.
-/

namespace Shellish

/-- A C string without its terminator. -/
abbrev Str := List Char

/-- The string terminator. -/
def NUL : Char := Char.ofNat 0

/-- The array `char *redirects[3]`: slot 0 is input, slot 1 output, slot 2 append.
`none` is the null pointer. -/
structure redirects_t where
  slot0 : Option Str
  slot1 : Option Str
  slot2 : Option Str
  deriving DecidableEq, Repr

/-- The type `struct command_t`.  `args` lists the slots of the `char **` array
(`none` is a null slot); `next` is the pointer to the following stage. -/
structure command_t where
  name : Str
  background : Bool
  auto_complete : Bool
  arg_count : Nat
  args : List (Option Str)
  redirects : redirects_t
  next : Option command_t

/-- The command that `main` hands to `prompt`: every byte zero (`memset`). -/
def zero_command : command_t :=
  { name := [], background := false, auto_complete := false, arg_count := 0,
    args := [], redirects := ⟨none, none, none⟩, next := none }

/-- The assignment `command->redirects[i] = p` for `i` in 0, 1, 2. -/
def set_redirect (r : redirects_t) (i : Nat) (p : Str) : redirects_t :=
  match i with
  | 0 => { r with slot0 := some p }
  | 1 => { r with slot1 := some p }
  | _ => { r with slot2 := some p }

/-- The delimiters of `parse_command`: `const char *splitters = " \t"`. -/
def splitters : List Char := [' ', '\t']

/-- The test `strchr(splitters, c) != NULL`.  `strchr` finds the terminator of
`splitters` too. -/
def in_splitters (c : Char) : Bool :=
  c == ' ' || c == '\t' || c == NUL

/-- The C string at the start of `mem` together with the memory after its
terminator; `none` when no terminator lies in the modelled memory. -/
def cstr : List Char → Option (Str × List Char)
  | [] => none
  | c :: m =>
    if c = NUL then some ([], m)
    else match cstr m with
      | none => none
      | some (s, t) => some (c :: s, t)

/-- The loop `while (len > 0 && strchr(splitters, buf[0]) != NULL) { buf++; len--; }`
on a string. -/
def ltrim (s : Str) : Str :=
  s.dropWhile in_splitters

/-- The loop `while (len > 0 && strchr(splitters, buf[len - 1]) != NULL) buf[--len] = 0;`
on a string: the string that is left. -/
def rtrim (s : Str) : Str :=
  (s.reverse.dropWhile in_splitters).reverse

/-- The scan `s += strspn(s, delim)` of `strtok`. -/
def strspn_skip (delim : List Char) (s : List Char) : List Char :=
  s.dropWhile (fun c => delim.contains c)

/-- The scan `end = s + strcspn(s, delim)` of `strtok`: the bytes before `end` and
the memory at `end`, whose first byte is a delimiter or the terminator. -/
def strcspn_split (delim : List Char) : List Char → Option (Str × List Char)
  | [] => none
  | c :: m =>
    if c = NUL ∨ delim.contains c = true then some ([], c :: m)
    else match strcspn_split delim m with
      | none => none
      | some (t, e) => some (c :: t, e)

/-- One call of `strtok` whose scan starts at `s` (the buffer for a first call,
the saved pointer for `strtok(NULL, delim)`).

* `none`: the scan leaves the modelled memory.
* `some (none, p)`: `NULL` is returned; the saved pointer `p` is at a terminator.
* `some (some (tok, e), p)`: the token `tok` is returned; `e` is the memory at the
  end of the token as it was before the call (its first byte ended the token) and
  `p` is the memory at the new saved pointer.  When the token was ended by a
  delimiter, that byte now holds a terminator and `p` starts after it. -/
def strtok (delim : List Char) (s : List Char) :
    Option (Option (Str × List Char) × List Char) :=
  match strspn_skip delim s with
  | [] => none
  | c :: m =>
    if c = NUL then some (none, c :: m)
    else match strcspn_split delim (c :: m) with
      | none => none
      | some (tok, e) =>
        match e with
        | [] => none
        | x :: rest =>
          if x = NUL then some (some (tok, e), e) else some (some (tok, e), rest)

/-- Lines 164-174: the redirect slot a token selects and the path `arg + 1` that is
copied into it. -/
def redirect_of (arg : Str) : Option (Nat × Str) :=
  match arg with
  | '<' :: p => some (0, p)
  | '>' :: '>' :: p => some (2, p)
  | '>' :: p => some (1, p)
  | _ => none

/-- Lines 182-188: a token longer than 2 that starts and ends with `"`, or starts
and ends with `'`, loses both. -/
def strip_quotes (arg : Str) : Str :=
  if 2 < arg.length ∧
      ((arg.head? = some '"' ∧ arg.getLast? = some '"') ∨
       (arg.head? = some '\'' ∧ arg.getLast? = some '\'')) then
    (arg.dropLast).drop 1
  else arg

/-- Lines 159-192: one pass of the loop body for a token `arg` that is not `|`.
`&` is skipped, a token that starts with `<` or `>` fills a redirect slot, any
other token is appended to the array after `strip_quotes`. -/
def scan_token (command : command_t) (args : List Str) (arg : Str) :
    command_t × List Str :=
  if arg = ['&'] then (command, args)
  else match redirect_of arg with
    | some (i, p) =>
      ({ command with redirects := set_redirect command.redirects i p }, args)
    | none => (command, args ++ [strip_quotes arg])

/-- The `while (1)` loop of `parse_command` (lines 122-193).

`save` is the memory at the saved pointer of `strtok`, `command` the struct so far
and `args` the array `command->args` so far (`arg_index` is its length).  `parse`
is the recursive call of `parse_command`, `depth` the nesting depth of the current
stage.  The result is the struct, the array and the saved pointer of `strtok` when
the loop breaks; `none` when `strcpy(arg, pch)` (line 128) does not fit
`temp_buf[1024]`.  The first argument bounds the number of iterations. -/
def scan (alloc : Nat → command_t)
    (parse : Nat → List Char → command_t → Option (command_t × List Char))
    (depth : Nat) :
    Nat → List Char → command_t → List Str → Option (command_t × List Str × List Char)
  | 0, _, _, _ => none
  | fuel + 1, save, command, args =>
    match strtok splitters save with
    | none => none
    | some (none, save1) => some (command, args, save1)
    | some (some (pch, e), save1) =>
      -- `strcpy(arg, pch)` writes `strlen(pch) + 1` bytes into `temp_buf[1024]`
      if 1024 ≤ pch.length then none
      else
        let arg := rtrim (ltrim pch)
        if arg = [] then scan alloc parse depth fuel save1 command args
        else if arg = ['|'] then
          -- `pch[l] = splitters[0]`, then the blanks from `pch + 1` on are skipped
          let m := pch ++ ' ' :: e.tail
          let inner := (m.drop 1).dropWhile (fun c => c == ' ' || c == '\t')
          match parse (depth + 1) inner (alloc depth) with
          | none => none
          | some (c, save2) =>
            scan alloc parse depth fuel save2 { command with next := some c } args
        else
          scan alloc parse depth fuel save1 (scan_token command args arg).1
            (scan_token command args arg).2

/-- The function `parse_command` with a bound on the nesting of pipes.  The result
is the struct after the call and the saved pointer of `strtok` at its end. -/
def parse_command_aux (alloc : Nat → command_t) :
    Nat → Nat → List Char → command_t → Option (command_t × List Char)
  | 0, _, _, _ => none
  | fuel + 1, depth, buf, command =>
    match cstr buf with
    | none => none
    | some (s, tail) =>
      let s1 := ltrim s
      let s2 := rtrim s1
      -- the buffer after both trims: the trimmed bytes are terminators now
      let mem := s2 ++ List.replicate (s1.length - s2.length + 1) NUL ++ tail
      let command :=
        if s2.getLast? = some '?' then { command with auto_complete := true } else command
      let command :=
        if s2.getLast? = some '&' then { command with background := true } else command
      match strtok splitters mem with
      | none => none
      | some (tok, save) =>
        let command :=
          { command with name := match tok with
                                 | none => []
                                 | some (pch, _) => pch }
        match scan alloc (parse_command_aux alloc fuel) depth (mem.length + 1) save
            command [] with
        | none => none
        | some (command, args, save1) =>
          some ({ command with
                    arg_count := args.length + 2
                    args := some command.name :: (args.map some ++ [none]) }, save1)

/-- The function `parse_command(buf, command)`: the struct after the call.  `buf` is
the memory at the pointer, `alloc` the contents of the blocks `malloc` returns for
later stages. -/
def parse_command (alloc : Nat → command_t) (buf : List Char) (command : command_t) :
    Option command_t :=
  (parse_command_aux alloc (buf.length + 1) 0 buf command).map Prod.fst

/-- The memory of a buffer that holds the line `s`, its terminator and then `tail`. -/
def buffer (s : String) (tail : List Char) : List Char :=
  s.toList ++ NUL :: tail

/-- The stages of a chain, first stage first. -/
def chain : command_t → List command_t
  | ⟨n, b, a, k, l, r, none⟩ => [⟨n, b, a, k, l, r, none⟩]
  | ⟨n, b, a, k, l, r, some c⟩ => ⟨n, b, a, k, l, r, some c⟩ :: chain c

/-- A byte of a token: neither a blank, nor a tab, nor the terminator. -/
def plain (c : Char) : Prop := c ≠ ' ' ∧ c ≠ '\t' ∧ c ≠ NUL

instance (c : Char) : Decidable (plain c) := by unfold plain; infer_instance

/-- A blank or a tab. -/
def blank (c : Char) : Prop := c = ' ' ∨ c = '\t'

instance (c : Char) : Decidable (blank c) := by unfold blank; infer_instance

/-- A token of a line: not empty, made of plain bytes. -/
def is_token (t : Str) : Prop := t ≠ [] ∧ ∀ c ∈ t, plain c

instance (t : Str) : Decidable (is_token t) := by unfold is_token; infer_instance

/-- A run of blanks and tabs, possibly empty. -/
def is_blanks (w : Str) : Prop := ∀ c ∈ w, blank c

instance (w : Str) : Decidable (is_blanks w) := by unfold is_blanks; infer_instance

/-- A separator between two tokens: a run of blanks and tabs that is not empty. -/
def is_sep (w : Str) : Prop := w ≠ [] ∧ is_blanks w

instance (w : Str) : Decidable (is_sep w) := by unfold is_sep; infer_instance

/-- The text of the tokens `ts`, each one written after its separator. -/
def join_tokens : List (Str × Str) → Str
  | [] => []
  | (sep, t) :: r => sep ++ t ++ join_tokens r

/-- The saved pointer of `strtok` after a token that ends at `rest`: at the
terminator, or one byte after the delimiter. -/
def advance : List Char → List Char
  | [] => []
  | x :: m => if x = NUL then x :: m else m

/-- The struct and the array after the loop has passed over the tokens `ts`, none
of which is `|`. -/
def scan_tokens (command : command_t) (args : List Str) (ts : List Str) :
    command_t × List Str :=
  ts.foldl (fun ca t => scan_token ca.1 ca.2 t) (command, args)

/-- The condition on the tokens after the name of a stage: each follows a
separator, none is `|`, and each fits `temp_buf[1024]` with its terminator. -/
def stage_tokens (ts : List (Str × Str)) : Prop :=
  ∀ p ∈ ts, is_sep p.1 ∧ is_token p.2 ∧ p.2 ≠ ['|'] ∧ p.2.length < 1024

instance (ts : List (Str × Str)) : Decidable (stage_tokens ts) := by
  unfold stage_tokens; infer_instance

/-- Lines 103-115: the struct when the loop starts.  `last` is the last byte of the
trimmed line, `name` the first token. -/
def start_stage (init : command_t) (last : Option Char) (name : Str) : command_t :=
  { (if last = some '&' then
      { (if last = some '?' then { init with auto_complete := true } else init) with
        background := true }
     else (if last = some '?' then { init with auto_complete := true } else init)) with
    name := name }

/-- Lines 194-207: the array gets the name in front and a null slot at the end. -/
def finish_stage (c : command_t) (args : List Str) : command_t :=
  { c with arg_count := args.length + 2, args := some c.name :: (args.map some ++ [none]) }

/-- A stage as it is written: its first token and the tokens after it, each with
the separator before it. -/
structure stage_text where
  name : Str
  toks : List (Str × Str)

/-- The text of a stage. -/
def stage_text.text (s : stage_text) : Str :=
  s.name ++ join_tokens s.toks

/-- The first token of a stage is a token; no later token is `|` and each later
token has fewer than 1024 bytes. -/
def stage_ok (s : stage_text) : Prop :=
  is_token s.name ∧ stage_tokens s.toks

instance (s : stage_text) : Decidable (stage_ok s) := by
  unfold stage_ok; infer_instance

/-- The text of the stage `s` followed by the stages of `r`, each after a `|`
token that stands between the two separators given with it. -/
def pipeline_text : stage_text → List (Str × Str × stage_text) → Str
  | s, [] => s.text
  | s, (w1, w2, s1) :: r => s.text ++ w1 ++ '|' :: w2 ++ pipeline_text s1 r

/-- Every `|` stands between separators and every later stage is well formed. -/
def pipes_ok (r : List (Str × Str × stage_text)) : Prop :=
  ∀ q ∈ r, is_sep q.1 ∧ is_sep q.2.1 ∧ stage_ok q.2.2

instance (r : List (Str × Str × stage_text)) : Decidable (pipes_ok r) := by
  unfold pipes_ok; infer_instance

/-- The struct of a stage after `parse_command`, before `next` is looked at:
`init` is the struct it was called on, `last` the last byte of the line. -/
def stage_result (init : command_t) (last : Option Char) (s : stage_text) : command_t :=
  finish_stage (scan_tokens (start_stage init last s.name) [] (s.toks.map Prod.snd)).1
    (scan_tokens (start_stage init last s.name) [] (s.toks.map Prod.snd)).2

/-- The chain for the stage `s` followed by the stages of `r`: the block of the
stage at depth `d + 1` starts as `alloc d`. -/
def stage_chain (alloc : Nat → command_t) (last : Option Char) :
    Nat → command_t → stage_text → List (Str × Str × stage_text) → command_t
  | _, init, s, [] => stage_result init last s
  | depth, init, s, (_, _, s1) :: r =>
    { stage_result init last s with
      next := some (stage_chain alloc last (depth + 1) (alloc depth) s1 r) }

/-- Lines 109-111 and 194-207: the struct after `parse_command` on the empty string.
The name is empty and the array is `[name, NULL]`; the other fields keep what the
block held. -/
def empty_stage (init : command_t) : command_t :=
  { init with name := [], arg_count := 2, args := [some [], none] }

/-- The chain for the stage `s`, the stages of `r` and a last `|` token with
nothing but trimmed blanks after it: the stage after that `|` is parsed from the
empty string.  The last byte of the trimmed line is `|`. -/
def stage_chain_dangling (alloc : Nat → command_t) :
    Nat → command_t → stage_text → List (Str × Str × stage_text) → command_t
  | depth, init, s, [] =>
    { stage_result init (some '|') s with next := some (empty_stage (alloc depth)) }
  | depth, init, s, (_, _, s1) :: r =>
    { stage_result init (some '|') s with
      next := some (stage_chain_dangling alloc (depth + 1) (alloc depth) s1 r) }

/-- The struct that `i` steps along `next` lead to, if the pointers on the way are
not null. -/
def stage_at : command_t → Nat → Option command_t
  | c, 0 => some c
  | c, i + 1 =>
    match c.next with
    | none => none
    | some d => stage_at d i

/-- A token that is an argument: not `&`, and it starts neither with `<` nor with
`>`. -/
def is_argument (t : Str) : Prop :=
  t ≠ ['&'] ∧ t.head? ≠ some '<' ∧ t.head? ≠ some '>'

instance (t : Str) : Decidable (is_argument t) := by
  unfold is_argument; infer_instance

/-! ## The value of `PATH` -/

theorem plain_not_in_splitters {c : Char} (h : plain c) : in_splitters c = false := by
  obtain ⟨h1, h2, h3⟩ := h
  simp [in_splitters, h1, h2, h3]

theorem blank_in_splitters {c : Char} (h : blank c) : in_splitters c = true := by
  rcases h with h | h <;> simp [in_splitters, h]

theorem blank_ne_NUL {c : Char} (h : blank c) : c ≠ NUL := by
  rcases h with h | h <;> rw [h] <;> decide

theorem blank_contains {c : Char} (h : blank c) : c ∈ splitters := by
  rcases h with h | h <;> rw [h] <;> decide

theorem plain_not_contains {c : Char} (h : plain c) : c ∉ splitters := by
  obtain ⟨h1, h2, _⟩ := h
  simp [splitters, h1, h2]

theorem NUL_not_contains : NUL ∉ splitters := by decide

theorem cstr_append (s : Str) (tail : List Char) (h : ∀ c ∈ s, c ≠ NUL) :
    cstr (s ++ NUL :: tail) = some (s, tail) := by
  induction s with
  | nil => simp [cstr]
  | cons c s ih =>
    have hc : c ≠ NUL := h c (List.mem_cons_self _ _)
    have hs : ∀ d ∈ s, d ≠ NUL := fun d hd => h d (List.mem_cons_of_mem _ hd)
    simp [cstr, hc, ih hs]

theorem ltrim_blanks_append (w : Str) (c : Char) (m : Str) (hw : is_blanks w)
    (hc : plain c) : ltrim (w ++ c :: m) = c :: m := by
  induction w with
  | nil => simp [ltrim, plain_not_in_splitters hc]
  | cons d w ih =>
    have hd : blank d := hw d (List.mem_cons_self _ _)
    have hw2 : is_blanks w := fun e he => hw e (List.mem_cons_of_mem _ he)
    have := ih hw2
    simp only [ltrim] at this ⊢
    simp [blank_in_splitters hd, this]

theorem rtrim_append_blanks (m : Str) (c : Char) (w : Str) (hw : is_blanks w)
    (hc : plain c) : rtrim (m ++ c :: w) = m ++ [c] := by
  have h1 : (m ++ c :: w).reverse = w.reverse ++ c :: m.reverse := by simp
  have h2 : ∀ a ∈ w.reverse, in_splitters a = true := fun a ha =>
    blank_in_splitters (hw a (List.mem_reverse.mp ha))
  simp only [rtrim, h1]
  rw [List.dropWhile_append_of_pos h2]
  simp [plain_not_in_splitters hc]

/-- A token is the same string after both trims of lines 133-139. -/
theorem trim_token (t : Str) (h : is_token t) : rtrim (ltrim t) = t := by
  obtain ⟨hne, hp⟩ := h
  have h1 : ltrim t = t := by
    cases t with
    | nil => rfl
    | cons c m => simp [ltrim, plain_not_in_splitters (hp c (List.mem_cons_self _ _))]
  rw [h1]
  obtain ⟨m, c, rfl⟩ : ∃ m c, t = m ++ [c] := by
    refine ⟨t.dropLast, t.getLast hne, ?_⟩
    exact (List.dropLast_append_getLast hne).symm
  have hc : plain c := hp c (by simp)
  exact rtrim_append_blanks m c [] (by intro a ha; cases ha) hc

/-! ## One call of `strtok` -/

theorem strspn_skip_append (D : List Char) (w : Str) (c : Char) (m : List Char)
    (hw : ∀ a ∈ w, a ∈ D) (hc : c ∉ D) :
    strspn_skip D (w ++ c :: m) = c :: m := by
  unfold strspn_skip
  rw [List.dropWhile_append_of_pos (by simpa using hw)]
  simp [hc]

theorem strcspn_split_append (D : List Char) (t : Str) (x : Char) (m : List Char)
    (ht : ∀ a ∈ t, a ≠ NUL ∧ a ∉ D)
    (hx : x = NUL ∨ x ∈ D) :
    strcspn_split D (t ++ x :: m) = some (t, x :: m) := by
  induction t with
  | nil =>
    rcases hx with hx | hx <;> simp [strcspn_split, hx]
  | cons c t ih =>
    obtain ⟨h1, h2⟩ := ht c (List.mem_cons_self _ _)
    have ht2 : ∀ a ∈ t, a ≠ NUL ∧ a ∉ D :=
      fun a ha => ht a (List.mem_cons_of_mem _ ha)
    simp [strcspn_split, h1, h2, ih ht2]

/-- A call of `strtok` that finds the token `t` after the delimiters `w`. -/
theorem strtok_token (D : List Char) (w t : Str) (x : Char)
    (m : List Char) (hw : ∀ a ∈ w, a ∈ D) (hne : t ≠ [])
    (ht : ∀ a ∈ t, a ≠ NUL ∧ a ∉ D)
    (hx : x = NUL ∨ x ∈ D) :
    strtok D (w ++ t ++ x :: m) = some (some (t, x :: m), advance (x :: m)) := by
  cases t with
  | nil => exact absurd rfl hne
  | cons c t =>
    obtain ⟨h1, h2⟩ := ht c (List.mem_cons_self _ _)
    have hs : strspn_skip D (w ++ (c :: t) ++ x :: m) = c :: (t ++ x :: m) := by
      have := strspn_skip_append D w c (t ++ x :: m) hw h2
      simpa using this
    have hc := strcspn_split_append D (c :: t) x m ht hx
    simp only [List.cons_append] at hc
    unfold strtok
    rw [hs]
    simp only [h1, if_false, hc, advance]
    by_cases hxn : x = NUL
    · simp [hxn]
    · simp [hxn]

/-- A call of `strtok` that finds only delimiters before the terminator. -/
theorem strtok_end (D : List Char) (hD : NUL ∉ D) (w : Str)
    (m : List Char) (hw : ∀ a ∈ w, a ∈ D) :
    strtok D (w ++ NUL :: m) = some (none, NUL :: m) := by
  unfold strtok
  rw [strspn_skip_append D w NUL m hw hD]
  simp

theorem token_bytes {t : Str} (h : is_token t) :
    ∀ a ∈ t, a ≠ NUL ∧ a ∉ splitters :=
  fun a ha => ⟨(h.2 a ha).2.2, plain_not_contains (h.2 a ha)⟩

theorem blanks_bytes {w : Str} (h : is_blanks w) :
    ∀ a ∈ w, a ∈ splitters :=
  fun a ha => blank_contains (h a ha)

theorem ends_token {x : Char} (h : x = NUL ∨ blank x) :
    x = NUL ∨ x ∈ splitters :=
  h.imp id blank_contains

/-! ## One pass of the loop of `parse_command` -/

section
variable (alloc : Nat → command_t)
variable (parse : Nat → List Char → command_t → Option (command_t × List Char))
variable (depth : Nat)

/-- The loop breaks when `strtok` finds no further token. -/
theorem scan_end (fuel : Nat) (w : Str) (m : List Char) (command : command_t)
    (args : List Str) (hw : is_blanks w) :
    scan alloc parse depth (fuel + 1) (w ++ NUL :: m) command args
      = some (command, args, NUL :: m) := by
  simp [scan, strtok_end splitters NUL_not_contains w m (blanks_bytes hw)]

/-- A pass of the loop on a token other than `|` that fits `temp_buf`. -/
theorem scan_step_token (fuel : Nat) (w t : Str) (x : Char) (m : List Char)
    (command : command_t) (args : List Str) (hw : is_blanks w) (ht : is_token t)
    (hp : t ≠ ['|']) (hl : t.length < 1024) (hx : x = NUL ∨ blank x) :
    scan alloc parse depth (fuel + 1) (w ++ t ++ x :: m) command args
      = scan alloc parse depth fuel (advance (x :: m)) (scan_token command args t).1
          (scan_token command args t).2 := by
  rw [scan, strtok_token splitters w t x m (blanks_bytes hw) ht.1
    (token_bytes ht) (ends_token hx)]
  simp only [trim_token t ht, ht.1, hp, if_false, if_neg (Nat.not_le.mpr hl)]

/-- A pass of the loop on a token that does not fit `temp_buf`: `strcpy` writes past
the array. -/
theorem scan_step_overflow (fuel : Nat) (w t : Str) (x : Char) (m : List Char)
    (command : command_t) (args : List Str) (hw : is_blanks w) (ht : is_token t)
    (hl : 1024 ≤ t.length) (hx : x = NUL ∨ blank x) :
    scan alloc parse depth (fuel + 1) (w ++ t ++ x :: m) command args = none := by
  rw [scan, strtok_token splitters w t x m (blanks_bytes hw) ht.1
    (token_bytes ht) (ends_token hx)]
  simp only [if_pos hl]

/-- A pass of the loop on the token `|`: the rest of the buffer is parsed as the
next stage, and the loop goes on from the saved pointer that call leaves. -/
theorem scan_step_pipe (fuel : Nat) (w : Str) (x : Char) (m : List Char)
    (command : command_t) (args : List Str) (hw : is_blanks w)
    (hx : x = NUL ∨ blank x) :
    scan alloc parse depth (fuel + 1) (w ++ '|' :: x :: m) command args
      = match parse (depth + 1)
            ((' ' :: m).dropWhile (fun c => c == ' ' || c == '\t')) (alloc depth) with
        | none => none
        | some (c, save2) =>
          scan alloc parse depth fuel save2 { command with next := some c } args := by
  have ht : is_token ['|'] := by decide
  have h := strtok_token splitters w ['|'] x m (blanks_bytes hw) ht.1
    (token_bytes ht) (ends_token hx)
  simp only [List.append_assoc, List.singleton_append] at h
  rw [scan, h]
  simp only [trim_token _ ht]
  simp

end

/-! ## The loop over the tokens of one stage -/

theorem stage_tokens_cons {p : Str × Str} {ts : List (Str × Str)}
    (h : stage_tokens (p :: ts)) :
    (is_sep p.1 ∧ is_token p.2 ∧ p.2 ≠ ['|'] ∧ p.2.length < 1024) ∧ stage_tokens ts :=
  ⟨h p (List.mem_cons_self _ _), fun q hq => h q (List.mem_cons_of_mem _ hq)⟩

theorem sep_cons {w : Str} (h : is_sep w) :
    ∃ d w1, w = d :: w1 ∧ blank d ∧ is_blanks w1 := by
  obtain ⟨hne, hb⟩ := h
  cases w with
  | nil => exact absurd rfl hne
  | cons d w1 =>
    exact ⟨d, w1, rfl, hb d (List.mem_cons_self _ _),
      fun e he => hb e (List.mem_cons_of_mem _ he)⟩

theorem token_cons {t : Str} (h : is_token t) :
    ∃ c t1, t = c :: t1 ∧ plain c := by
  obtain ⟨hne, hp⟩ := h
  cases t with
  | nil => exact absurd rfl hne
  | cons c t1 => exact ⟨c, t1, rfl, hp c (List.mem_cons_self _ _)⟩

theorem token_concat {t : Str} (h : is_token t) :
    ∃ t1 c, t = t1 ++ [c] ∧ plain c := by
  obtain ⟨hne, hp⟩ := h
  refine ⟨t.dropLast, t.getLast hne, (List.dropLast_append_getLast hne).symm, ?_⟩
  exact hp _ (List.getLast_mem hne)

/-- The text of the tokens of a stage, followed by `rest`, starts with the byte
that ends the token before it. -/
theorem join_tokens_head (ts : List (Str × Str)) (rest : List Char)
    (h : stage_tokens ts) (hr : ∃ x m, rest = x :: m ∧ (x = NUL ∨ blank x)) :
    ∃ x m, join_tokens ts ++ rest = x :: m ∧ (x = NUL ∨ blank x) := by
  cases ts with
  | nil => simpa [join_tokens] using hr
  | cons p r =>
    obtain ⟨⟨hs, _, _, _⟩, _⟩ := stage_tokens_cons h
    obtain ⟨d, w1, hw, hd, _⟩ := sep_cons hs
    obtain ⟨sep, t⟩ := p
    simp only at hw
    subst hw
    exact ⟨d, w1 ++ t ++ join_tokens r ++ rest, by simp [join_tokens], Or.inr hd⟩

section
variable (alloc : Nat → command_t)
variable (parse : Nat → List Char → command_t → Option (command_t × List Char))
variable (depth : Nat)

/-- The passes of the loop over the tokens of a stage, up to the byte run `rest`
that follows the last of them. -/
theorem scan_stage (ts : List (Str × Str)) (rest : List Char) (fuel : Nat)
    (command : command_t) (args : List Str) (h : stage_tokens ts)
    (hr : ∃ x m, rest = x :: m ∧ (x = NUL ∨ blank x)) :
    scan alloc parse depth (fuel + ts.length) (advance (join_tokens ts ++ rest))
        command args
      = scan alloc parse depth fuel (advance rest)
          (scan_tokens command args (ts.map Prod.snd)).1
          (scan_tokens command args (ts.map Prod.snd)).2 := by
  induction ts generalizing command args with
  | nil => simp [join_tokens, scan_tokens]
  | cons p r ih =>
    obtain ⟨⟨hs, ht, hp, hl⟩, hr2⟩ := stage_tokens_cons h
    obtain ⟨d, w1, hw, hd, hw1⟩ := sep_cons hs
    obtain ⟨sep, t⟩ := p
    simp only at hw ht hp hl
    subst hw
    obtain ⟨x, m, hxm, hx⟩ := join_tokens_head r rest hr2 hr
    have e1 : advance (join_tokens ((d :: w1, t) :: r) ++ rest) = w1 ++ t ++ x :: m := by
      simp [join_tokens, advance, blank_ne_NUL hd, ← hxm]
    have e2 : fuel + ((d :: w1, t) :: r).length = (fuel + r.length) + 1 := by
      simp; omega
    rw [e1, e2, scan_step_token alloc parse depth _ w1 t x m command args hw1 ht hp hl hx,
      ← hxm, ih _ _ hr2]
    simp [scan_tokens]

end

theorem join_tokens_length (ts : List (Str × Str)) (h : stage_tokens ts) :
    ts.length ≤ (join_tokens ts).length := by
  induction ts with
  | nil => simp
  | cons p r ih =>
    obtain ⟨⟨hs, _, _, _⟩, hr2⟩ := stage_tokens_cons h
    have := ih hr2
    have h1 : 0 < p.1.length := List.length_pos.mpr hs.1
    simp only [join_tokens, List.length_cons, List.length_append]
    omega

theorem join_tokens_no_NUL (ts : List (Str × Str)) (h : stage_tokens ts) :
    ∀ c ∈ join_tokens ts, c ≠ NUL := by
  induction ts with
  | nil => simp [join_tokens]
  | cons p r ih =>
    obtain ⟨⟨hs, ht, _, _⟩, hr2⟩ := stage_tokens_cons h
    intro c hc
    simp only [join_tokens, List.mem_append] at hc
    rcases hc with (hc | hc) | hc
    · exact blank_ne_NUL (hs.2 c hc)
    · exact (ht.2 c hc).2.2
    · exact ih hr2 c hc

/-- A text that ends with a plain byte still does after the tokens of a stage. -/
theorem join_tokens_last (ts : List (Str × Str)) (h : stage_tokens ts) (pre : Str)
    (c : Char) (hc : plain c) :
    ∃ m c1, pre ++ [c] ++ join_tokens ts = m ++ [c1] ∧ plain c1 := by
  induction ts generalizing pre c with
  | nil => exact ⟨pre, c, by simp [join_tokens], hc⟩
  | cons p r ih =>
    obtain ⟨⟨_, ht, _, _⟩, hr2⟩ := stage_tokens_cons h
    obtain ⟨t1, c2, ht1, hc2⟩ := token_concat ht
    obtain ⟨m, c1, hm, hc1⟩ := ih hr2 (pre ++ [c] ++ p.1 ++ t1) c2 hc2
    refine ⟨m, c1, ?_, hc1⟩
    rw [← hm]
    obtain ⟨sep, t⟩ := p
    simp only at ht1
    subst ht1
    simp [join_tokens]

/-! ## One call of `parse_command` -/

theorem ltrim_plain (text : Str) (h : ∃ c t, text = c :: t ∧ plain c) :
    ltrim text = text := by
  obtain ⟨c, t, rfl, hc⟩ := h
  exact ltrim_blanks_append [] c t (by intro a ha; cases ha) hc

theorem rtrim_plain (text : Str) (h : ∃ t c, text = t ++ [c] ∧ plain c) :
    rtrim text = text := by
  obtain ⟨t, c, rfl, hc⟩ := h
  exact rtrim_append_blanks t c [] (by intro a ha; cases ha) hc

theorem parse_aux_text (alloc : Nat → command_t) (F depth : Nat) (text : Str)
    (after : List Char) (init : command_t) (name : Str) (x : Char) (m : List Char)
    (hnul : ∀ c ∈ text, c ≠ NUL) (hhead : ∃ c t, text = c :: t ∧ plain c)
    (hlast : ∃ t c, text = t ++ [c] ∧ plain c) (hname : is_token name)
    (hx : x = NUL ∨ blank x) (hsplit : text ++ NUL :: after = name ++ x :: m) :
    parse_command_aux alloc (F + 1) depth (text ++ NUL :: after) init =
      match scan alloc (parse_command_aux alloc F) depth
          ((text ++ NUL :: after).length + 1) (advance (x :: m))
          (start_stage init text.getLast? name) [] with
      | none => none
      | some (c, args, save1) => some (finish_stage c args, save1) := by
  have hmem : text ++ List.replicate (text.length - text.length + 1) NUL ++ after
      = text ++ NUL :: after := by simp
  have htok := strtok_token splitters [] name x m (by intro a ha; cases ha) hname.1
    (token_bytes hname) (ends_token hx)
  simp only [List.nil_append] at htok
  rw [parse_command_aux, cstr_append text after hnul]
  simp only [ltrim_plain text hhead, rtrim_plain text hlast, hmem]
  rw [hsplit, htok]
  simp only [start_stage, finish_stage]

/-! ## Lines made of stages and pipes -/

theorem pipes_ok_cons {q : Str × Str × stage_text} {r : List (Str × Str × stage_text)}
    (h : pipes_ok (q :: r)) :
    (is_sep q.1 ∧ is_sep q.2.1 ∧ stage_ok q.2.2) ∧ pipes_ok r :=
  ⟨h q (List.mem_cons_self _ _), fun p hp => h p (List.mem_cons_of_mem _ hp)⟩

theorem stage_text_no_NUL (s : stage_text) (h : stage_ok s) : ∀ c ∈ s.text, c ≠ NUL := by
  intro c hc
  simp only [stage_text.text, List.mem_append] at hc
  rcases hc with hc | hc
  · exact (h.1.2 c hc).2.2
  · exact join_tokens_no_NUL s.toks h.2 c hc

theorem stage_text_head (s : stage_text) (h : stage_ok s) :
    ∃ c t, s.text = c :: t ∧ plain c := by
  obtain ⟨c, t1, ht, hc⟩ := token_cons h.1
  exact ⟨c, t1 ++ join_tokens s.toks, by simp [stage_text.text, ht], hc⟩

theorem stage_text_last (s : stage_text) (h : stage_ok s) :
    ∃ t c, s.text = t ++ [c] ∧ plain c := by
  obtain ⟨t1, c, ht, hc⟩ := token_concat h.1
  obtain ⟨m, c1, hm, hc1⟩ := join_tokens_last s.toks h.2 t1 c hc
  exact ⟨m, c1, by rw [← hm, stage_text.text, ht], hc1⟩

theorem pipeline_text_no_NUL (s : stage_text) (r : List (Str × Str × stage_text))
    (hs : stage_ok s) (hr : pipes_ok r) : ∀ c ∈ pipeline_text s r, c ≠ NUL := by
  induction r generalizing s with
  | nil => exact stage_text_no_NUL s hs
  | cons q r ih =>
    obtain ⟨⟨h1, h2, h3⟩, hr2⟩ := pipes_ok_cons hr
    obtain ⟨w1, w2, s1⟩ := q
    intro c hc
    simp only [pipeline_text, List.mem_append, List.mem_cons] at hc
    rcases hc with ((hc | hc) | (hc | hc)) | hc
    · exact stage_text_no_NUL s hs c hc
    · exact blank_ne_NUL (h1.2 c hc)
    · rw [hc]; decide
    · exact blank_ne_NUL (h2.2 c hc)
    · exact ih s1 h3 hr2 c hc

theorem pipeline_text_head (s : stage_text) (r : List (Str × Str × stage_text))
    (hs : stage_ok s) : ∃ c t, pipeline_text s r = c :: t ∧ plain c := by
  obtain ⟨c, t, ht, hc⟩ := stage_text_head s hs
  cases r with
  | nil => exact ⟨c, t, ht, hc⟩
  | cons q r =>
    obtain ⟨w1, w2, s1⟩ := q
    exact ⟨c, t ++ w1 ++ '|' :: w2 ++ pipeline_text s1 r, by simp [pipeline_text, ht], hc⟩

theorem pipeline_text_last (s : stage_text) (r : List (Str × Str × stage_text))
    (hs : stage_ok s) (hr : pipes_ok r) :
    ∃ t c, pipeline_text s r = t ++ [c] ∧ plain c := by
  induction r generalizing s with
  | nil => exact stage_text_last s hs
  | cons q r ih =>
    obtain ⟨⟨_, _, h3⟩, hr2⟩ := pipes_ok_cons hr
    obtain ⟨w1, w2, s1⟩ := q
    obtain ⟨t, c, ht, hc⟩ := ih s1 h3 hr2
    exact ⟨s.text ++ w1 ++ '|' :: w2 ++ t, c, by simp [pipeline_text, ht], hc⟩

/-- The last byte of a line is the last byte of what follows its first pipe. -/
theorem pipeline_text_getLast (s : stage_text) (w1 w2 : Str) (s1 : stage_text)
    (r : List (Str × Str × stage_text)) (h3 : stage_ok s1) :
    (pipeline_text s ((w1, w2, s1) :: r)).getLast? = (pipeline_text s1 r).getLast? := by
  obtain ⟨c, t, ht, _⟩ := pipeline_text_head s1 r h3
  simp only [pipeline_text, ht]
  rw [List.getLast?_append]
  cases h : (c :: t).getLast? with
  | none => simp at h
  | some a => rfl

theorem dropWhile_blanks (w : Str) (c : Char) (m : List Char) (hw : is_blanks w)
    (hc : plain c) :
    (w ++ c :: m).dropWhile (fun a => a == ' ' || a == '\t') = c :: m := by
  have h : ∀ a ∈ w, (a == ' ' || a == '\t') = true := by
    intro a ha
    rcases hw a ha with h | h <;> simp [h]
  rw [List.dropWhile_append_of_pos h]
  obtain ⟨h1, h2, _⟩ := hc
  simp [h1, h2]

/-- The result of `parse_command` on a line of stages and pipes, for any contents
of the struct it is called on and of the blocks `malloc` returns. -/
theorem parse_pipeline (alloc : Nat → command_t) (r : List (Str × Str × stage_text)) :
    ∀ (s : stage_text) (depth : Nat) (init : command_t) (after : List Char) (F : Nat),
      stage_ok s → pipes_ok r → r.length < F →
      parse_command_aux alloc F depth (pipeline_text s r ++ NUL :: after) init
        = some (stage_chain alloc (pipeline_text s r).getLast? depth init s r,
            NUL :: after) := by
  induction r with
  | nil =>
    intro s depth init after F hs _ hF
    obtain ⟨F1, rfl⟩ : ∃ F1, F = F1 + 1 := ⟨F - 1, by omega⟩
    obtain ⟨x, m, hxm, hx⟩ := join_tokens_head s.toks (NUL :: after) hs.2
      ⟨NUL, after, rfl, Or.inl rfl⟩
    have hsplit : pipeline_text s [] ++ NUL :: after = s.name ++ x :: m := by
      simp [pipeline_text, stage_text.text, ← hxm]
    rw [parse_aux_text alloc F1 depth (pipeline_text s []) after init s.name x m
      (pipeline_text_no_NUL s [] hs (by intro q hq; cases hq))
      (pipeline_text_head s [] hs)
      (pipeline_text_last s [] hs (by intro q hq; cases hq)) hs.1 hx hsplit]
    have hlen := join_tokens_length s.toks hs.2
    obtain ⟨F2, hF2⟩ : ∃ F2, (pipeline_text s [] ++ NUL :: after).length + 1
        = (F2 + 1) + s.toks.length := by
      refine ⟨(pipeline_text s [] ++ NUL :: after).length - s.toks.length, ?_⟩
      simp only [pipeline_text, stage_text.text, List.length_append, List.length_cons]
      omega
    rw [hF2, ← hxm, scan_stage alloc _ depth s.toks (NUL :: after) (F2 + 1) _ _ hs.2
      ⟨NUL, after, rfl, Or.inl rfl⟩]
    have hadv : advance (NUL :: after) = [] ++ NUL :: after := by simp [advance]
    rw [hadv, scan_end alloc _ depth F2 [] after _ _ (by intro a ha; cases ha)]
    simp [stage_chain, stage_result]
  | cons q r ih =>
    intro s depth init after F hs hr hF
    obtain ⟨F1, rfl⟩ : ∃ F1, F = F1 + 1 := ⟨F - 1, by omega⟩
    have hF1 : r.length < F1 := by simpa using hF
    obtain ⟨⟨h1, h2, h3⟩, hr2⟩ := pipes_ok_cons hr
    obtain ⟨w1, w2, s1⟩ := q
    simp only at h1 h2 h3
    obtain ⟨d1, v1, rfl, hd1, hv1⟩ := sep_cons h1
    obtain ⟨d2, v2, rfl, hd2, hv2⟩ := sep_cons h2
    obtain ⟨c1, t1, ht1, hc1⟩ := pipeline_text_head s1 r h3
    -- the bytes after the tokens of the first stage
    have hrest : ∃ x m, (d1 :: v1 ++ '|' :: d2 :: v2 ++ pipeline_text s1 r ++ NUL :: after)
        = x :: m ∧ (x = NUL ∨ blank x) :=
      ⟨d1, v1 ++ '|' :: d2 :: v2 ++ pipeline_text s1 r ++ NUL :: after, by simp, Or.inr hd1⟩
    obtain ⟨x, m, hxm, hx⟩ := join_tokens_head s.toks _ hs.2 hrest
    have hsplit : pipeline_text s ((d1 :: v1, d2 :: v2, s1) :: r) ++ NUL :: after
        = s.name ++ x :: m := by
      rw [← hxm]
      simp [pipeline_text, stage_text.text]
    rw [parse_aux_text alloc F1 depth _ after init s.name x m
      (pipeline_text_no_NUL s _ hs hr) (pipeline_text_head s _ hs)
      (pipeline_text_last s _ hs hr) hs.1 hx hsplit]
    have hlen := join_tokens_length s.toks hs.2
    obtain ⟨F2, hF2⟩ : ∃ F2,
        (pipeline_text s ((d1 :: v1, d2 :: v2, s1) :: r) ++ NUL :: after).length + 1
          = (F2 + 1 + 1) + s.toks.length := by
      refine ⟨(pipeline_text s ((d1 :: v1, d2 :: v2, s1) :: r) ++ NUL :: after).length
        - s.toks.length - 1, ?_⟩
      simp only [pipeline_text, stage_text.text, List.length_append, List.length_cons]
      omega
    rw [hF2, ← hxm, scan_stage alloc _ depth s.toks _ (F2 + 1 + 1) _ _ hs.2 hrest]
    have hadv : advance (d1 :: v1 ++ '|' :: d2 :: v2 ++ pipeline_text s1 r ++ NUL :: after)
        = v1 ++ '|' :: d2 :: (v2 ++ pipeline_text s1 r ++ NUL :: after) := by
      simp [advance, blank_ne_NUL hd1]
    rw [hadv, scan_step_pipe alloc _ depth (F2 + 1) v1 d2 _ _ _ hv1 (Or.inr hd2)]
    have hdrop : (' ' :: (v2 ++ pipeline_text s1 r ++ NUL :: after)).dropWhile
        (fun a => a == ' ' || a == '\t') = pipeline_text s1 r ++ NUL :: after := by
      have := dropWhile_blanks (' ' :: v2) c1 (t1 ++ NUL :: after)
        (by
          intro a ha
          rcases List.mem_cons.mp ha with h | h
          · exact Or.inl h
          · exact hv2 a h) hc1
      simpa [ht1] using this
    rw [hdrop, ih s1 (depth + 1) (alloc depth) after F1 h3 hr2 hF1]
    simp only []
    have hlast : NUL :: after = [] ++ NUL :: after := rfl
    rw [hlast, scan_end alloc _ depth F2 [] after _ _ (by intro a ha; cases ha)]
    simp [stage_chain, stage_result, finish_stage, pipeline_text_getLast s _ _ s1 r h3]

/-! ## Blanks around the line -/

/-- The trims of lines 95-101: a call on a line with blanks around it is a call on
the line itself, with one more terminator behind it for every trailing blank. -/
theorem parse_aux_trim (alloc : Nat → command_t) (F depth : Nat) (lead text trail : Str)
    (tail : List Char) (init : command_t) (hlead : is_blanks lead)
    (htrail : is_blanks trail) (hnul : ∀ c ∈ text, c ≠ NUL)
    (hhead : ∃ c t, text = c :: t ∧ plain c) (hlast : ∃ t c, text = t ++ [c] ∧ plain c) :
    parse_command_aux alloc F depth (lead ++ text ++ trail ++ NUL :: tail) init
      = parse_command_aux alloc F depth
          (text ++ NUL :: (List.replicate trail.length NUL ++ tail)) init := by
  cases F with
  | zero => simp [parse_command_aux]
  | succ F =>
    have h1 : ∀ c ∈ lead ++ text ++ trail, c ≠ NUL := by
      intro c hc
      simp only [List.mem_append] at hc
      rcases hc with (hc | hc) | hc
      · exact blank_ne_NUL (hlead c hc)
      · exact hnul c hc
      · exact blank_ne_NUL (htrail c hc)
    have h2 : ltrim (lead ++ text ++ trail) = text ++ trail := by
      obtain ⟨c, t, rfl, hc⟩ := hhead
      have := ltrim_blanks_append lead c (t ++ trail) hlead hc
      simpa using this
    have h3 : rtrim (text ++ trail) = text := by
      obtain ⟨t, c, rfl, hc⟩ := hlast
      have := rtrim_append_blanks t c trail htrail hc
      simpa using this
    have h4 : text ++ List.replicate ((text ++ trail).length - text.length + 1) NUL ++ tail
        = text ++ List.replicate (text.length - text.length + 1) NUL
            ++ (List.replicate trail.length NUL ++ tail) := by
      simp [List.replicate_succ]
    simp only [parse_command_aux]
    rw [cstr_append _ tail h1, cstr_append text _ hnul]
    simp only [h2, h3, ltrim_plain text hhead, rtrim_plain text hlast, h4]

theorem pipeline_text_length (s : stage_text) (r : List (Str × Str × stage_text)) :
    r.length ≤ (pipeline_text s r).length := by
  induction r generalizing s with
  | nil => simp
  | cons q r ih =>
    obtain ⟨w1, w2, s1⟩ := q
    have := ih s1
    simp only [pipeline_text, List.length_append, List.length_cons]
    omega

/-- The function `parse_command` on a line of stages and pipes with blanks around
it: the chain of the stages. -/
theorem parse_command_line (alloc : Nat → command_t) (lead trail : Str) (s : stage_text)
    (r : List (Str × Str × stage_text)) (tail : List Char) (init : command_t)
    (hlead : is_blanks lead) (htrail : is_blanks trail) (hs : stage_ok s)
    (hr : pipes_ok r) :
    parse_command alloc (lead ++ pipeline_text s r ++ trail ++ NUL :: tail) init
      = some (stage_chain alloc (pipeline_text s r).getLast? 0 init s r) := by
  have hlen := pipeline_text_length s r
  unfold parse_command
  rw [parse_aux_trim alloc _ 0 lead (pipeline_text s r) trail tail init hlead htrail
    (pipeline_text_no_NUL s r hs hr) (pipeline_text_head s r hs)
    (pipeline_text_last s r hs hr),
    parse_pipeline alloc r s 0 init _ _ hs hr
      (by simp only [List.length_append, List.length_cons]; omega)]
  rfl

/-! ## Tokens that become arguments -/

theorem redirect_of_argument (t : Str) (h1 : t.head? ≠ some '<')
    (h2 : t.head? ≠ some '>') : redirect_of t = none := by
  unfold redirect_of
  split
  · simp at h1
  · simp at h2
  · simp at h2
  · rfl

theorem scan_token_argument (c : command_t) (a : List Str) (t : Str)
    (h : is_argument t) : scan_token c a t = (c, a ++ [strip_quotes t]) := by
  obtain ⟨h0, h1, h2⟩ := h
  simp [scan_token, h0, redirect_of_argument t h1 h2]

theorem scan_tokens_arguments (c : command_t) (a : List Str) (ts : List Str)
    (h : ∀ t ∈ ts, is_argument t) :
    scan_tokens c a ts = (c, a ++ ts.map strip_quotes) := by
  induction ts generalizing a with
  | nil => simp [scan_tokens]
  | cons t r ih =>
    have h1 := scan_token_argument c a t (h t (List.mem_cons_self _ _))
    have h2 := ih (a ++ [strip_quotes t]) (fun u hu => h u (List.mem_cons_of_mem _ hu))
    simp only [scan_tokens, List.foldl_cons] at h2 ⊢
    rw [h1, h2]
    simp

/-- The two orders of dropping the first and the last byte agree. -/
theorem strip_quotes_eq (t : Str) :
    strip_quotes t =
      if 2 < t.length ∧
          ((t.head? = some '"' ∧ t.getLast? = some '"') ∨
           (t.head? = some '\'' ∧ t.getLast? = some '\'')) then
        (t.drop 1).dropLast
      else t := by
  unfold strip_quotes
  simp only [List.drop_one, List.tail_dropLast]

/-! ## Properties that every pass of the loop keeps -/

theorem strcspn_split_bytes (D : List Char) (m : List Char) (t : Str) (e : List Char)
    (h : strcspn_split D m = some (t, e)) : ∀ ch ∈ t, ch ∉ D ∧ ch ≠ NUL := by
  induction m generalizing t e with
  | nil => simp [strcspn_split] at h
  | cons c m ih =>
    rw [strcspn_split] at h
    split at h
    · simp only [Option.some.injEq, Prod.mk.injEq] at h
      intro ch hch
      rw [← h.1] at hch
      cases hch
    · rename_i hc
      have hc1 : c ≠ NUL := fun hh => hc (Or.inl hh)
      have hc2 : c ∉ D := fun hh => hc (Or.inr (by simpa using hh))
      cases hm : strcspn_split D m with
      | none => simp [hm] at h
      | some r =>
        obtain ⟨t1, e1⟩ := r
        simp only [hm, Option.some.injEq, Prod.mk.injEq] at h
        intro ch hch
        rw [← h.1] at hch
        rcases List.mem_cons.mp hch with hh | hh
        · rw [hh]; exact ⟨hc2, hc1⟩
        · exact ih t1 e1 hm ch hh

/-- A token that `strtok` returns holds no delimiter and no terminator. -/
theorem strtok_bytes (D : List Char) (s : List Char) (tok : Str) (e p : List Char)
    (h : strtok D s = some (some (tok, e), p)) : ∀ ch ∈ tok, ch ∉ D ∧ ch ≠ NUL := by
  unfold strtok at h
  split at h
  · simp at h
  · rename_i c m _
    split at h
    · simp at h
    · cases hm : strcspn_split D (c :: m) with
      | none => simp [hm] at h
      | some r =>
        obtain ⟨t1, e1⟩ := r
        simp only [hm] at h
        have ht := strcspn_split_bytes D (c :: m) t1 e1 hm
        split at h
        · simp at h
        · split at h
          · simp only [Option.some.injEq, Prod.mk.injEq] at h
            rw [← h.1.1]; exact ht
          · simp only [Option.some.injEq, Prod.mk.injEq] at h
            rw [← h.1.1]; exact ht

/-- A property of the struct and the array that every pass over a token keeps, and
that a store to `next` keeps, holds when the loop breaks. -/
theorem scan_invariant (alloc : Nat → command_t)
    (parse : Nat → List Char → command_t → Option (command_t × List Char))
    (depth : Nat) (P : command_t → List Str → Prop)
    (htok : ∀ c a pch, (∀ ch ∈ pch, ch ∉ splitters ∧ ch ≠ NUL) → P c a →
      P (scan_token c a (rtrim (ltrim pch))).1 (scan_token c a (rtrim (ltrim pch))).2)
    (hnext : ∀ c a n, P c a → P { c with next := some n } a) :
    ∀ (fuel : Nat) (save : List Char) (command : command_t) (args : List Str)
      (res : command_t × List Str × List Char),
      P command args → scan alloc parse depth fuel save command args = some res →
      P res.1 res.2.1 := by
  intro fuel
  induction fuel with
  | zero => intro save command args res _ h; simp [scan] at h
  | succ fuel ih =>
    intro save command args res hP h
    rw [scan] at h
    cases hs : strtok splitters save with
    | none => simp [hs] at h
    | some r =>
      obtain ⟨tok, save1⟩ := r
      cases tok with
      | none =>
        simp only [hs, Option.some.injEq] at h
        rw [← h]; exact hP
      | some te =>
        obtain ⟨pch, e⟩ := te
        have hb := strtok_bytes splitters save pch e save1 hs
        simp only [hs] at h
        split at h
        · simp at h
        · split at h
          · exact ih _ _ _ _ hP h
          · split at h
            · split at h
              · simp at h
              · exact ih _ _ _ _ (hnext _ _ _ hP) h
            · exact ih _ _ _ _ (htok _ _ pch hb hP) h

/-! ## The flags and the last byte of the line -/

theorem scan_token_background (c : command_t) (a : List Str) (t : Str) :
    (scan_token c a t).1.background = c.background := by
  unfold scan_token
  split
  · rfl
  · split <;> rfl

/-- The loop never writes `background`. -/
theorem scan_background (alloc : Nat → command_t)
    (parse : Nat → List Char → command_t → Option (command_t × List Char))
    (depth fuel : Nat) (save : List Char) (command : command_t) (args : List Str)
    (res : command_t × List Str × List Char)
    (h : scan alloc parse depth fuel save command args = some res) :
    res.1.background = command.background :=
  scan_invariant alloc parse depth (fun c _ => c.background = command.background)
    (fun c a _ _ hc => (scan_token_background c a _).trans hc)
    (fun _ _ _ hc => hc) fuel save command args res rfl h

/-- A call of `parse_command` that returns: the first `strtok` call, the loop and
lines 194-207. -/
theorem parse_aux_unfold (alloc : Nat → command_t) (F depth : Nat) (line : Str)
    (tail : List Char) (init c : command_t) (p : List Char)
    (hline : ∀ ch ∈ line, ch ≠ NUL)
    (h : parse_command_aux alloc (F + 1) depth (line ++ NUL :: tail) init = some (c, p)) :
    ∃ tok save c1 args,
      strtok splitters (rtrim (ltrim line)
          ++ List.replicate ((ltrim line).length - (rtrim (ltrim line)).length + 1) NUL
          ++ tail) = some (tok, save) ∧
      scan alloc (parse_command_aux alloc F) depth
          ((rtrim (ltrim line)
            ++ List.replicate ((ltrim line).length - (rtrim (ltrim line)).length + 1) NUL
            ++ tail).length + 1) save
          (start_stage init (rtrim (ltrim line)).getLast?
            (match tok with
             | none => []
             | some (pch, _) => pch)) [] = some (c1, args, p) ∧
      c = finish_stage c1 args := by
  rw [parse_command_aux, cstr_append line tail hline] at h
  simp only [] at h
  split at h
  · simp at h
  · rename_i tok save htok
    split at h
    · simp at h
    · rename_i c1 args save1 hs
      simp only [Option.some.injEq, Prod.mk.injEq] at h
      refine ⟨tok, save, c1, args, htok, ?_, ?_⟩
      · rw [← h.2]
        simpa only [start_stage] using hs
      · rw [← h.1]
        simp only [finish_stage]

theorem start_stage_background (init : command_t) (last : Option Char) (name : Str) :
    (start_stage init last name).background
      = if last = some '&' then true else init.background := by
  unfold start_stage
  split <;> split <;> rfl

/-- After a call of `parse_command`, `background` is true when the trimmed line ends
with `&`, and as before the call otherwise. -/
theorem parse_aux_background (alloc : Nat → command_t) (F depth : Nat) (line : Str)
    (tail : List Char) (init c : command_t) (p : List Char)
    (hline : ∀ ch ∈ line, ch ≠ NUL)
    (h : parse_command_aux alloc F depth (line ++ NUL :: tail) init = some (c, p)) :
    c.background
      = if (rtrim (ltrim line)).getLast? = some '&' then true else init.background := by
  cases F with
  | zero => simp [parse_command_aux] at h
  | succ F =>
    obtain ⟨tok, save, c1, args, _, hs, hc⟩ :=
      parse_aux_unfold alloc F depth line tail init c p hline h
    have hb := scan_background _ _ _ _ _ _ _ _ hs
    rw [hc, ← start_stage_background init _ _, ← hb]
    rfl

/-- The last byte of the trimmed line is the last byte of the line that is neither
a blank nor a tab. -/
theorem trimmed_last (line : Str) (hline : ∀ ch ∈ line, ch ≠ NUL) :
    (rtrim (ltrim line)).getLast?
      = line.reverse.find? (fun ch => !(ch == ' ' || ch == '\t')) := by
  have h1 : (rtrim (ltrim line)).getLast?
      = (ltrim line).reverse.find? (fun ch => !in_splitters ch) := by
    rw [List.find?_not_eq_head?_dropWhile]
    simp [rtrim]
  have h2 : (ltrim line).reverse.find? (fun ch => !in_splitters ch)
      = line.reverse.find? (fun ch => !in_splitters ch) := by
    have hsplit : line = line.takeWhile in_splitters ++ ltrim line := by
      simp [ltrim]
    conv_rhs => rw [hsplit, List.reverse_append, List.find?_append]
    have hnone : (line.takeWhile in_splitters).reverse.find? (fun ch => !in_splitters ch)
        = none := by
      rw [List.find?_eq_none]
      intro x hx
      have := List.mem_takeWhile_imp (List.mem_reverse.mp hx)
      simp [this]
    rw [hnone, Option.or_none]
  have h3 : ∀ l : List Char, (∀ ch ∈ l, ch ≠ NUL) →
      l.find? (fun ch => !in_splitters ch) = l.find? (fun ch => !(ch == ' ' || ch == '\t')) := by
    intro l hl
    induction l with
    | nil => rfl
    | cons a l ih =>
      have ha : a ≠ NUL := hl a (List.mem_cons_self _ _)
      have hq : in_splitters a = (a == ' ' || a == '\t') := by
        simp [in_splitters, ha]
      simp only [List.find?_cons, hq]
      rw [ih (fun ch hch => hl ch (List.mem_cons_of_mem _ hch))]
  rw [h1, h2, h3 line.reverse (fun ch hch => hline ch (List.mem_reverse.mp hch))]

/-! ## The chain as a list of stages -/

theorem chain_cons (c d : command_t) (h : c.next = some d) : chain c = c :: chain d := by
  obtain ⟨n, b, a, k, l, r, nx⟩ := c
  simp only at h
  subst h
  simp [chain]

theorem chain_head (c : command_t) : (chain c).take 1 = [c] := by
  obtain ⟨n, b, a, k, l, r, nx⟩ := c
  cases nx <;> simp [chain]

theorem chain_last (c : command_t) (h : c.next = none) : chain c = [c] := by
  obtain ⟨n, b, a, k, l, r, nx⟩ := c
  simp only at h
  subst h
  simp [chain]

/-! ## Tokens that fill a redirect slot -/

theorem scan_token_in (c : command_t) (a : List Str) (p : Str) :
    scan_token c a ('<' :: p)
      = ({ c with redirects := { c.redirects with slot0 := some p } }, a) := by
  simp [scan_token, redirect_of, set_redirect]

theorem start_stage_redirects (init : command_t) (last : Option Char) (name : Str) :
    (start_stage init last name).redirects = init.redirects := by
  unfold start_stage
  split <;> split <;> rfl

/-- The slot a token fills, by the form of the token. -/
theorem redirect_of_cases (t : Str) :
    (redirect_of t = none ∧ t.head? ≠ some '<' ∧ t.head? ≠ some '>') ∨
    (∃ q, t = '<' :: q ∧ redirect_of t = some (0, q)) ∨
    (∃ q, t = '>' :: q ∧ q.head? ≠ some '>' ∧ redirect_of t = some (1, q)) ∨
    (∃ q, t = '>' :: '>' :: q ∧ redirect_of t = some (2, q)) := by
  cases t with
  | nil => exact Or.inl ⟨rfl, by simp, by simp⟩
  | cons c q =>
    by_cases h1 : c = '<'
    · subst h1
      exact Or.inr (Or.inl ⟨q, rfl, rfl⟩)
    · by_cases h2 : c = '>'
      · subst h2
        cases q with
        | nil => exact Or.inr (Or.inr (Or.inl ⟨[], rfl, by simp, rfl⟩))
        | cons e q1 =>
          by_cases h3 : e = '>'
          · subst h3
            exact Or.inr (Or.inr (Or.inr ⟨q1, rfl, rfl⟩))
          · refine Or.inr (Or.inr (Or.inl ⟨e :: q1, rfl, by simpa using h3, ?_⟩))
            simp [redirect_of, h3]
      · refine Or.inl ⟨?_, by simpa using h1, by simpa using h2⟩
        exact redirect_of_argument _ (by simpa using h1) (by simpa using h2)

/-! ## No argument holds a blank -/

theorem scan_token_name (c : command_t) (a : List Str) (t : Str) :
    (scan_token c a t).1.name = c.name := by
  unfold scan_token
  split
  · rfl
  · split <;> rfl

theorem start_stage_name (init : command_t) (last : Option Char) (name : Str) :
    (start_stage init last name).name = name := by
  unfold start_stage
  split <;> split <;> rfl

theorem scan_end_nil (alloc : Nat → command_t)
    (parse : Nat → List Char → command_t → Option (command_t × List Char))
    (depth fuel : Nat) (m : List Char) (command : command_t) (args : List Str) :
    scan alloc parse depth (fuel + 1) (NUL :: m) command args
      = some (command, args, NUL :: m) :=
  scan_end alloc parse depth fuel [] m command args (by intro a ha; cases ha)

/-- A call of `parse_command` on the empty string: the name is empty and the array
is `[name, NULL]`. -/
theorem parse_aux_empty (alloc : Nat → command_t) (F depth : Nat) (after : List Char)
    (init : command_t) :
    parse_command_aux alloc (F + 1) depth (NUL :: after) init
      = some ({ init with name := [], arg_count := 2, args := [some [], none] },
          NUL :: after) := by
  have hs := strtok_end splitters NUL_not_contains [] after (by intro a ha; cases ha)
  simp only [List.nil_append] at hs
  have hc : cstr (NUL :: after) = some ([], after) := by simp [cstr]
  rw [parse_command_aux, hc]
  simp [ltrim, rtrim, hs, scan_end_nil]

theorem scan_tokens_name (c : command_t) (a : List Str) (ts : List Str) :
    (scan_tokens c a ts).1.name = c.name := by
  induction ts generalizing c a with
  | nil => rfl
  | cons t r ih =>
    have := ih (scan_token c a t).1 (scan_token c a t).2
    simp only [scan_tokens, List.foldl_cons] at this ⊢
    rw [this, scan_token_name]

theorem stage_result_name (init : command_t) (last : Option Char) (s : stage_text) :
    (stage_result init last s).name = s.name := by
  simp only [stage_result, finish_stage]
  rw [scan_tokens_name, start_stage_name]

theorem stage_chain_name (alloc : Nat → command_t) (last : Option Char) (depth : Nat)
    (init : command_t) (s : stage_text) (r : List (Str × Str × stage_text)) :
    (stage_chain alloc last depth init s r).name = s.name := by
  cases r with
  | nil => exact stage_result_name init last s
  | cons q r =>
    obtain ⟨w1, w2, s1⟩ := q
    exact stage_result_name init last s

/-- A stage followed by `|` and the end of the trimmed line, with one more
terminator behind it: the next stage is parsed from the empty string. -/
theorem parse_aux_dangling (alloc : Nat → command_t) (F depth : Nat) (s : stage_text)
    (w1 : Str) (after : List Char) (init : command_t) (hs : stage_ok s)
    (hw1 : is_sep w1) :
    parse_command_aux alloc (F + 2) depth
        (s.text ++ w1 ++ ['|'] ++ NUL :: NUL :: after) init
      = some ({ stage_result init (some '|') s with
                next := some { alloc depth with
                               name := [], arg_count := 2, args := [some [], none] } },
          NUL :: after) := by
  obtain ⟨d1, v1, rfl, hd1, hv1⟩ := sep_cons hw1
  have hrest : ∃ x m, (d1 :: v1 ++ '|' :: NUL :: NUL :: after) = x :: m ∧
      (x = NUL ∨ blank x) := ⟨d1, v1 ++ '|' :: NUL :: NUL :: after, by simp, Or.inr hd1⟩
  obtain ⟨x, m, hxm, hx⟩ := join_tokens_head s.toks _ hs.2 hrest
  have hsplit : s.text ++ d1 :: v1 ++ ['|'] ++ NUL :: NUL :: after = s.name ++ x :: m := by
    rw [← hxm]
    simp [stage_text.text]
  have hnul : ∀ c ∈ s.text ++ d1 :: v1 ++ ['|'], c ≠ NUL := by
    intro c hc
    simp only [List.mem_append, List.mem_singleton] at hc
    rcases hc with (hc | hc) | hc
    · exact stage_text_no_NUL s hs c hc
    · exact blank_ne_NUL (hw1.2 c hc)
    · rw [hc]; decide
  obtain ⟨c0, t0, ht0, hc0⟩ := stage_text_head s hs
  have hhead : ∃ c t, s.text ++ d1 :: v1 ++ ['|'] = c :: t ∧ plain c :=
    ⟨c0, t0 ++ d1 :: v1 ++ ['|'], by simp [ht0], hc0⟩
  have hlast : ∃ t c, s.text ++ d1 :: v1 ++ ['|'] = t ++ [c] ∧ plain c :=
    ⟨s.text ++ d1 :: v1, '|', rfl, by decide⟩
  have hlen := join_tokens_length s.toks hs.2
  have hgl : (s.text ++ d1 :: v1 ++ ['|']).getLast? = some '|' :=
    List.getLast?_concat _
  rw [parse_aux_text alloc (F + 1) depth _ (NUL :: after) init s.name x m hnul hhead hlast
    hs.1 hx hsplit, hgl]
  obtain ⟨F2, hF2⟩ : ∃ F2,
      (s.text ++ d1 :: v1 ++ ['|'] ++ NUL :: NUL :: after).length + 1
        = (F2 + 1 + 1) + s.toks.length := by
    refine ⟨(s.text ++ d1 :: v1 ++ ['|'] ++ NUL :: NUL :: after).length
      - s.toks.length - 1, ?_⟩
    simp only [stage_text.text, List.length_append, List.length_cons]
    omega
  rw [hF2, ← hxm, scan_stage alloc _ depth s.toks _ (F2 + 1 + 1) _ _ hs.2 hrest]
  have hadv : advance (d1 :: v1 ++ '|' :: NUL :: NUL :: after)
      = v1 ++ '|' :: NUL :: (NUL :: after) := by
    simp [advance, blank_ne_NUL hd1]
  rw [hadv, scan_step_pipe alloc _ depth (F2 + 1) v1 NUL _ _ _ hv1 (Or.inl rfl)]
  have hdrop : (' ' :: NUL :: after).dropWhile (fun a => a == ' ' || a == '\t')
      = NUL :: after := by
    have h1 : (NUL == ' ' || NUL == '\t') = false := by decide
    simp [h1]
  rw [hdrop, parse_aux_empty alloc F (depth + 1) after (alloc depth)]
  simp only []
  have hlast2 : NUL :: after = [] ++ NUL :: after := rfl
  rw [hlast2, scan_end alloc _ depth F2 [] after _ _ (by intro a ha; cases ha)]
  simp [stage_result, finish_stage]

/-! ## The names and the arguments of the stages of a chain -/

theorem scan_token_next (c : command_t) (a : List Str) (t : Str) :
    (scan_token c a t).1.next = c.next := by
  unfold scan_token
  split
  · rfl
  · split <;> rfl

theorem scan_tokens_next (c : command_t) (a : List Str) (ts : List Str) :
    (scan_tokens c a ts).1.next = c.next := by
  induction ts generalizing c a with
  | nil => rfl
  | cons t r ih =>
    have := ih (scan_token c a t).1 (scan_token c a t).2
    simp only [scan_tokens, List.foldl_cons] at this ⊢
    rw [this, scan_token_next]

theorem start_stage_next (init : command_t) (last : Option Char) (name : Str) :
    (start_stage init last name).next = init.next := by
  unfold start_stage
  split <;> split <;> rfl

theorem stage_result_next (init : command_t) (last : Option Char) (s : stage_text) :
    (stage_result init last s).next = init.next := by
  simp only [stage_result, finish_stage]
  rw [scan_tokens_next, start_stage_next]

/-- The array after the passes over the tokens `ts`: the tokens that are arguments,
in order, each after `strip_quotes`. -/
theorem scan_tokens_args (c : command_t) (a : List Str) (ts : List Str) :
    (scan_tokens c a ts).2
      = a ++ (ts.filter (fun t => decide (is_argument t))).map strip_quotes := by
  induction ts generalizing c a with
  | nil => simp [scan_tokens]
  | cons t r ih =>
    have h2 := ih (scan_token c a t).1 (scan_token c a t).2
    simp only [scan_tokens, List.foldl_cons] at h2 ⊢
    rw [h2]
    by_cases harg : is_argument t
    · rw [scan_token_argument c a t harg]
      simp [harg]
    · have hsame : (scan_token c a t).2 = a := by
        by_cases hamp : t = ['&']
        · simp [scan_token, hamp]
        · rcases redirect_of_cases t with ⟨_, h1, h2⟩ | ⟨q, rfl, h⟩ | ⟨q, rfl, _, h⟩ |
            ⟨q, rfl, h⟩
          · exact absurd ⟨hamp, h1, h2⟩ harg
          · simp [scan_token, h]
          · simp [scan_token, h]
          · simp [scan_token, h]
      rw [hsame]
      simp [harg]

theorem stage_result_args (init : command_t) (last : Option Char) (s : stage_text) :
    (stage_result init last s).args
      = some s.name ::
          (((s.toks.map Prod.snd).filter (fun t => decide (is_argument t))).map
            (fun t => some (strip_quotes t)) ++ [none]) := by
  simp only [stage_result, finish_stage]
  rw [scan_tokens_name, start_stage_name, scan_tokens_args]
  simp

/-- When the struct and the blocks of `malloc` start with a null `next`, the chain
has one struct for every stage, with the name and the arguments of that stage. -/
theorem stage_chain_stages (alloc : Nat → command_t) (last : Option Char)
    (halloc : ∀ d, (alloc d).next = none) (r : List (Str × Str × stage_text)) :
    ∀ (s : stage_text) (depth : Nat) (init : command_t), init.next = none →
      (chain (stage_chain alloc last depth init s r)).map (fun n => (n.name, n.args))
        = (s :: r.map (fun q => q.2.2)).map (fun st => (st.name, some st.name ::
            (((st.toks.map Prod.snd).filter (fun t => decide (is_argument t))).map
              (fun t => some (strip_quotes t)) ++ [none]))) := by
  induction r with
  | nil =>
    intro s depth init hinit
    rw [stage_chain, chain_last _ (by rw [stage_result_next]; exact hinit)]
    simp [stage_result_name, stage_result_args]
  | cons q r ih =>
    intro s depth init _
    obtain ⟨w1, w2, s1⟩ := q
    rw [stage_chain, chain_cons _ _ rfl]
    simp only [List.map_cons]
    rw [ih s1 (depth + 1) (alloc depth) (halloc depth)]
    simp [stage_result_name, stage_result_args]

/-! ## The search of `PATH` -/

theorem cstr_of_mem (buf : List Char) (h : NUL ∈ buf) :
    ∃ s tail, cstr buf = some (s, tail) ∧ buf = s ++ NUL :: tail ∧ ∀ ch ∈ s, ch ≠ NUL := by
  induction buf with
  | nil => cases h
  | cons c m ih =>
    by_cases hc : c = NUL
    · subst hc
      exact ⟨[], m, by simp [cstr], rfl, by intro ch hch; cases hch⟩
    · have hm : NUL ∈ m := by
        rcases List.mem_cons.mp h with h1 | h1
        · exact absurd h1.symm hc
        · exact h1
      obtain ⟨s, tail, h1, h2, h3⟩ := ih hm
      refine ⟨c :: s, tail, by simp [cstr, hc, h1], by rw [h2]; rfl, ?_⟩
      intro ch hch
      rcases List.mem_cons.mp hch with h4 | h4
      · rw [h4]; exact hc
      · exact h3 ch h4

/-- The delimiters before the first byte that is not one. -/
theorem skip_spec (D : List Char) (hD : NUL ∉ D) (s : List Char) (h : NUL ∈ s) :
    ∃ w c m, s = w ++ c :: m ∧ (∀ a ∈ w, a ∈ D) ∧ c ∉ D ∧ NUL ∈ c :: m := by
  induction s with
  | nil => cases h
  | cons a s ih =>
    by_cases ha : a ∈ D
    · have hs : NUL ∈ s := by
        rcases List.mem_cons.mp h with h1 | h1
        · exact absurd (h1 ▸ ha) hD
        · exact h1
      obtain ⟨w, c, m, h1, h2, h3, h4⟩ := ih hs
      refine ⟨a :: w, c, m, by rw [h1]; rfl, ?_, h3, h4⟩
      intro b hb
      rcases List.mem_cons.mp hb with h5 | h5
      · rw [h5]; exact ha
      · exact h2 b h5
    · exact ⟨[], a, s, rfl, (by intro b hb; cases hb), ha, h⟩

/-- The bytes before the first delimiter or terminator. -/
theorem span_spec (D : List Char) (s : List Char) (h : NUL ∈ s) :
    ∃ t x e, s = t ++ x :: e ∧ (∀ a ∈ t, a ≠ NUL ∧ a ∉ D) ∧ (x = NUL ∨ x ∈ D) := by
  induction s with
  | nil => cases h
  | cons a s ih =>
    by_cases ha : a = NUL ∨ a ∈ D
    · exact ⟨[], a, s, rfl, (by intro b hb; cases hb), ha⟩
    · have ha1 : a ≠ NUL := fun e => ha (Or.inl e)
      have ha2 : a ∉ D := fun e => ha (Or.inr e)
      have hs : NUL ∈ s := by
        rcases List.mem_cons.mp h with h1 | h1
        · exact absurd h1.symm ha1
        · exact h1
      obtain ⟨t, x, e, h1, h2, h3⟩ := ih hs
      refine ⟨a :: t, x, e, by rw [h1]; rfl, ?_, h3⟩
      intro b hb
      rcases List.mem_cons.mp hb with h5 | h5
      · rw [h5]; exact ⟨ha1, ha2⟩
      · exact h2 b h5

/-- What a call of `strtok` does on memory that holds a terminator. -/
theorem strtok_spec (D : List Char) (hD : NUL ∉ D) (s : List Char) (h : NUL ∈ s) :
    (∃ w m, s = w ++ NUL :: m ∧ (∀ a ∈ w, a ∈ D) ∧ strtok D s = some (none, NUL :: m)) ∨
    (∃ w pch x e, s = w ++ pch ++ x :: e ∧ (∀ a ∈ w, a ∈ D) ∧ pch ≠ [] ∧
      (∀ a ∈ pch, a ≠ NUL ∧ a ∉ D) ∧ (x = NUL ∨ x ∈ D) ∧
      strtok D s = some (some (pch, x :: e), advance (x :: e))) := by
  obtain ⟨w, c, m, h1, h2, h3, h4⟩ := skip_spec D hD s h
  by_cases hc : c = NUL
  · subst hc
    exact Or.inl ⟨w, m, h1, h2, by rw [h1]; exact strtok_end D hD w m h2⟩
  · obtain ⟨t, x, e, h5, h6, h7⟩ := span_spec D (c :: m) h4
    have hne : t ≠ [] := by
      intro ht
      subst ht
      simp only [List.nil_append, List.cons.injEq] at h5
      rcases h7 with h7 | h7
      · exact hc (h5.1.trans h7)
      · exact h3 (h5.1 ▸ h7)
    refine Or.inr ⟨w, t, x, e, by rw [h1, h5, List.append_assoc], h2, hne, h6, h7, ?_⟩
    rw [h1, h5, ← List.append_assoc]
    exact strtok_token D w t x e h2 hne h6 h7

theorem count_dropWhile (p : Char → Bool) (c : Char) (hc : p c = false) (l : List Char) :
    (l.dropWhile p).count c = l.count c := by
  induction l with
  | nil => rfl
  | cons a l ih =>
    by_cases ha : p a = true
    · have hne : a ≠ c := fun e => by rw [e, hc] at ha; cases ha
      simp [List.dropWhile_cons, ha, ih, List.count_cons, hne]
    · simp [List.dropWhile_cons, ha]

theorem count_blanks (w : Str) (c : Char) (hw : ∀ a ∈ w, a ∈ splitters) (hc : c ∉ splitters) :
    w.count c = 0 :=
  List.count_eq_zero.mpr (fun h => hc (hw c h))

theorem count_advance_NUL (x : Char) (e : List Char) :
    (advance (x :: e)).count NUL = (x :: e).count NUL := by
  by_cases hx : x = NUL
  · simp [advance, hx]
  · simp [advance, hx, List.count_cons]

theorem count_advance_le (c x : Char) (e : List Char) :
    (advance (x :: e)).count c ≤ (x :: e).count c := by
  by_cases hx : x = NUL
  · simp [advance, hx]
  · simp only [advance, hx, if_false]
    exact List.count_le_count_cons c x e

theorem length_advance_le (x : Char) (e : List Char) :
    (advance (x :: e)).length ≤ e.length + 1 := by
  by_cases hx : x = NUL
  · simp [advance, hx]
  · simp [advance, hx]

/-- The unfolding of a call of `parse_command` whose first `strtok` call is known.
`name` is the token it returned, or the empty string. -/
theorem parse_aux_step (alloc : Nat → command_t) (F depth : Nat) (buf : List Char)
    (s : Str) (tail : List Char) (init : command_t) (tok : Option (Str × List Char))
    (save : List Char) (name : Str) (hc : cstr buf = some (s, tail))
    (ht : strtok splitters (rtrim (ltrim s)
        ++ List.replicate ((ltrim s).length - (rtrim (ltrim s)).length + 1) NUL
        ++ tail) = some (tok, save))
    (hname : tok = none ∧ name = [] ∨ ∃ e, tok = some (name, e)) :
    parse_command_aux alloc (F + 1) depth buf init =
      match scan alloc (parse_command_aux alloc F) depth
          ((rtrim (ltrim s)
            ++ List.replicate ((ltrim s).length - (rtrim (ltrim s)).length + 1) NUL
            ++ tail).length + 1) save
          (start_stage init (rtrim (ltrim s)).getLast? name) [] with
      | none => none
      | some (c, args, save1) => some (finish_stage c args, save1) := by
  rw [parse_command_aux, hc]
  rcases hname with ⟨h1, h2⟩ | ⟨e, h1⟩
  · subst h1 h2
    simp only [ht, start_stage, finish_stage]
  · subst h1
    simp only [ht, start_stage, finish_stage]

theorem splitters_not_pipe : '|' ∉ splitters := by decide

theorem token_of_bytes {pch : Str} (hne : pch ≠ [])
    (hb : ∀ a ∈ pch, a ≠ NUL ∧ a ∉ splitters) : is_token pch := by
  refine ⟨hne, fun c hc => ?_⟩
  obtain ⟨h1, h2⟩ := hb c hc
  refine ⟨?_, ?_, h1⟩
  · intro e; exact h2 (by rw [e]; decide)
  · intro e; exact h2 (by rw [e]; decide)

theorem blank_of_mem {x : Char} (h : x ∈ splitters) : blank x := by
  simp only [splitters, List.mem_cons, List.mem_singleton, List.not_mem_nil, or_false] at h
  exact h

/-- The loop breaks with the saved pointer at a terminator, whenever the memory at
the saved pointer has at most 1024 bytes (so that every token fits `temp_buf`) and
holds more terminators than `|` bytes, and the recursive call returns on such
memory. -/
theorem scan_total (alloc : Nat → command_t)
    (parse : Nat → List Char → command_t → Option (command_t × List Char))
    (depth bound : Nat)
    (hparse : ∀ (d : Nat) (M : List Char) (init : command_t), M.length < bound →
      M.length ≤ 1024 →
      M.count '|' + 1 ≤ M.count NUL → ∃ c rest, parse d M init = some (c, NUL :: rest)) :
    ∀ (fuel : Nat) (save : List Char) (command : command_t) (args : List Str),
      save.length < fuel → save.length ≤ bound → save.length ≤ 1024 →
      save.count '|' + 1 ≤ save.count NUL →
      ∃ c a rest, scan alloc parse depth fuel save command args
        = some (c, a, NUL :: rest) := by
  intro fuel
  induction fuel with
  | zero => intro save _ _ h; omega
  | succ fuel ih =>
    intro save command args hlen hbound hcap hcount
    have hmem : NUL ∈ save := List.count_pos_iff.mp (by omega)
    rcases strtok_spec splitters NUL_not_contains save hmem with
      ⟨w, m, rfl, hw, _⟩ | ⟨w, pch, x, e, rfl, hw, hne, hb, hx, _⟩
    · exact ⟨command, args, m,
        scan_end alloc parse depth fuel w m command args (fun c hc => blank_of_mem (hw c hc))⟩
    · have hwb : is_blanks w := fun c hc => blank_of_mem (hw c hc)
      have htok : is_token pch := token_of_bytes hne hb
      have hxb : x = NUL ∨ blank x := hx.imp id blank_of_mem
      have hxp : x ≠ '|' := by
        rcases hxb with h | h | h <;> rw [h] <;> decide
      have hwN : w.count NUL = 0 := count_blanks w NUL hw NUL_not_contains
      have hwP : w.count '|' = 0 := count_blanks w '|' hw splitters_not_pipe
      have hpN : pch.count NUL = 0 :=
        List.count_eq_zero.mpr (fun h => (hb NUL h).1 rfl)
      have hplen : 0 < pch.length := List.length_pos.mpr hne
      simp only [List.length_append, List.length_cons, List.count_append]
        at hlen hbound hcap hcount
      by_cases hp : pch = ['|']
      · subst hp
        have hsc := scan_step_pipe alloc parse depth fuel w x e command args hwb hxb
        simp only [List.append_assoc, List.singleton_append] at hsc ⊢
        rw [hsc]
        have hdN : ((' ' :: e).dropWhile (fun c => c == ' ' || c == '\t')).count NUL
            = e.count NUL := by
          rw [count_dropWhile _ NUL (by decide)]
          simp [List.count_cons]
          decide
        have hdP : ((' ' :: e).dropWhile (fun c => c == ' ' || c == '\t')).count '|'
            = e.count '|' := by
          rw [count_dropWhile _ '|' (by decide)]
          simp [List.count_cons]
        have hdl : ((' ' :: e).dropWhile (fun c => c == ' ' || c == '\t')).length
            ≤ e.length + 1 := by
          have := (List.dropWhile_sublist (fun c => c == ' ' || c == '\t')
            (l := ' ' :: e)).length_le
          simpa using this
        have hxN : (x :: e).count NUL ≤ e.count NUL + 1 := by
          rw [List.count_cons]; split <;> omega
        have hxP : (x :: e).count '|' = e.count '|' := by
          rw [List.count_cons]; simp [hxp]
        have h1 : (['|'] : List Char).count '|' = 1 := by decide
        have h2 : (['|'] : List Char).length = 1 := rfl
        obtain ⟨c1, rest, hpr⟩ := hparse (depth + 1)
          ((' ' :: e).dropWhile (fun c => c == ' ' || c == '\t')) (alloc depth)
          (by omega) (by omega) (by omega)
        rw [hpr]
        simp only []
        obtain ⟨f, rfl⟩ : ∃ f, fuel = f + 1 := ⟨fuel - 1, by omega⟩
        exact ⟨_, _, rest, scan_end_nil alloc parse depth f rest _ _⟩
      · rw [scan_step_token alloc parse depth fuel w pch x e command args hwb htok hp
          (by omega) hxb]
        have hl := length_advance_le x e
        have hN := count_advance_NUL x e
        have hP := count_advance_le '|' x e
        exact ih _ _ _ (by omega) (by omega) (by omega) (by omega)

theorem length_ltrim_le (s : Str) : (ltrim s).length ≤ s.length :=
  (List.dropWhile_sublist in_splitters).length_le

theorem length_rtrim_le (s : Str) : (rtrim s).length ≤ s.length := by
  have := (List.dropWhile_sublist in_splitters (l := s.reverse)).length_le
  simpa [rtrim] using this

theorem count_ltrim_le (c : Char) (s : Str) : (ltrim s).count c ≤ s.count c :=
  (List.dropWhile_sublist in_splitters).count_le c

theorem count_rtrim_le (c : Char) (s : Str) : (rtrim s).count c ≤ s.count c := by
  have := (List.dropWhile_sublist in_splitters (l := s.reverse)).count_le c
  simpa [rtrim] using this

/-- A call of `parse_command` returns, with the saved pointer of `strtok` at a
terminator, on every buffer of at most 1024 bytes that holds more terminators than
`|` bytes. -/
theorem parse_aux_total (alloc : Nat → command_t) :
    ∀ (F depth : Nat) (buf : List Char) (init : command_t), buf.length < F →
      buf.length ≤ 1024 → buf.count '|' + 1 ≤ buf.count NUL →
      ∃ c rest, parse_command_aux alloc F depth buf init = some (c, NUL :: rest) := by
  intro F
  induction F with
  | zero => intro _ buf _ h; omega
  | succ F ih =>
    intro depth buf init hlen hcap hcount
    have hmem : NUL ∈ buf := List.count_pos_iff.mp (by omega)
    obtain ⟨s, tail, hc, hbuf, hs⟩ := cstr_of_mem buf hmem
    have hsN : s.count NUL = 0 := List.count_eq_zero.mpr (fun h => hs NUL h rfl)
    have hl1 := length_ltrim_le s
    have hl2 := length_rtrim_le (ltrim s)
    have hp1 := count_ltrim_le '|' s
    have hp2 := count_rtrim_le '|' (ltrim s)
    have hn2 : (rtrim (ltrim s)).count NUL = 0 := by
      have h1 := count_ltrim_le NUL s
      have h2 := count_rtrim_le NUL (ltrim s)
      omega
    have hrP : (List.replicate ((ltrim s).length - (rtrim (ltrim s)).length + 1) NUL).count '|'
        = 0 := by
      rw [List.count_eq_zero]
      intro h
      have := List.eq_of_mem_replicate h
      exact absurd this (by decide)
    rw [hbuf] at hlen hcap hcount
    simp only [List.length_append, List.length_cons, List.count_append, List.count_cons_self,
      List.count_cons] at hlen hcap hcount
    have hnp : (NUL == '|') = false := by decide
    simp only [hnp] at hcount
    have hmemN : NUL ∈ rtrim (ltrim s)
        ++ List.replicate ((ltrim s).length - (rtrim (ltrim s)).length + 1) NUL ++ tail := by
      simp [List.replicate_succ]
    rcases strtok_spec splitters NUL_not_contains _ hmemN with
      ⟨w, m, hm, hw, hst⟩ | ⟨w, pch, x, e, hm, hw, hne, hb, hx, hst⟩
    · rw [parse_aux_step alloc F depth buf s tail init none (NUL :: m) [] hc hst
        (Or.inl ⟨rfl, rfl⟩), scan_end_nil]
      exact ⟨_, m, rfl⟩
    · rw [parse_aux_step alloc F depth buf s tail init _ _ pch hc hst (Or.inr ⟨_, rfl⟩)]
      have hwN : w.count NUL = 0 := count_blanks w NUL hw NUL_not_contains
      have hpN : pch.count NUL = 0 :=
        List.count_eq_zero.mpr (fun h => (hb NUL h).1 rfl)
      have hplen : 0 < pch.length := List.length_pos.mpr hne
      have hl := length_advance_le x e
      have hN := count_advance_NUL x e
      have hP := count_advance_le '|' x e
      have hmlen := congrArg List.length hm
      have hmN := congrArg (List.count NUL) hm
      have hmP := congrArg (List.count '|') hm
      simp only [List.length_append, List.length_cons, List.count_append,
        List.length_replicate, List.count_replicate_self] at hmlen hmN hmP
      rw [hrP] at hmP
      obtain ⟨c, a, rest, hscan⟩ := scan_total alloc (parse_command_aux alloc F) depth F
        (fun d M i h1 h2 h3 => ih d M i h1 h2 h3)
        ((rtrim (ltrim s)
          ++ List.replicate ((ltrim s).length - (rtrim (ltrim s)).length + 1) NUL
          ++ tail).length + 1) (advance (x :: e))
        (start_stage init (rtrim (ltrim s)).getLast? pch) []
        (by
          simp only [List.length_append, List.length_replicate]
          omega)
        (by omega) (by omega) (by omega)
      rw [hscan]
      exact ⟨_, rest, rfl⟩

/-! ## A line that ends with a pipe -/

/-- The result of `parse_command` on a line of stages and pipes that ends with one
more `|` token, with one more terminator behind the line (a trimmed blank): the
stage after the last `|` is parsed from the empty string. -/
theorem parse_pipeline_dangling (alloc : Nat → command_t)
    (r : List (Str × Str × stage_text)) :
    ∀ (s : stage_text) (depth : Nat) (init : command_t) (w : Str) (after : List Char)
      (F : Nat), stage_ok s → pipes_ok r → is_sep w → r.length + 1 < F →
      parse_command_aux alloc F depth
          (pipeline_text s r ++ w ++ ['|'] ++ NUL :: NUL :: after) init
        = some (stage_chain_dangling alloc depth init s r, NUL :: after) := by
  induction r with
  | nil =>
    intro s depth init w after F hs _ hw hF
    obtain ⟨F1, rfl⟩ : ∃ F1, F = F1 + 2 := ⟨F - 2, by simp at hF; omega⟩
    simp only [pipeline_text]
    rw [parse_aux_dangling alloc F1 depth s w after init hs hw]
    rfl
  | cons q r ih =>
    intro s depth init w after F hs hr hw hF
    obtain ⟨F1, rfl⟩ : ∃ F1, F = F1 + 1 := ⟨F - 1, by omega⟩
    have hF1 : r.length + 1 < F1 := by simpa using hF
    obtain ⟨⟨h1, h2, h3⟩, hr2⟩ := pipes_ok_cons hr
    obtain ⟨w1, w2, s1⟩ := q
    simp only at h1 h2 h3
    obtain ⟨d1, v1, rfl, hd1, hv1⟩ := sep_cons h1
    obtain ⟨d2, v2, rfl, hd2, hv2⟩ := sep_cons h2
    obtain ⟨c1, t1, ht1, hc1⟩ := pipeline_text_head s1 r h3
    obtain ⟨c0, t0, ht0, hc0⟩ := pipeline_text_head s ((d1 :: v1, d2 :: v2, s1) :: r) hs
    -- the bytes after the tokens of the first stage
    have hrest : ∃ x m, (d1 :: v1 ++ '|' :: d2 :: v2
          ++ (pipeline_text s1 r ++ w ++ ['|'] ++ NUL :: NUL :: after))
        = x :: m ∧ (x = NUL ∨ blank x) :=
      ⟨d1, v1 ++ '|' :: d2 :: v2 ++ (pipeline_text s1 r ++ w ++ ['|'] ++ NUL :: NUL :: after),
        by simp, Or.inr hd1⟩
    obtain ⟨x, m, hxm, hx⟩ := join_tokens_head s.toks _ hs.2 hrest
    have hsplit : pipeline_text s ((d1 :: v1, d2 :: v2, s1) :: r) ++ w ++ ['|']
          ++ NUL :: NUL :: after
        = s.name ++ x :: m := by
      rw [← hxm]
      simp [pipeline_text, stage_text.text]
    have hnul : ∀ c ∈ pipeline_text s ((d1 :: v1, d2 :: v2, s1) :: r) ++ w ++ ['|'],
        c ≠ NUL := by
      intro c hc
      simp only [List.mem_append, List.mem_singleton] at hc
      rcases hc with (hc | hc) | hc
      · exact pipeline_text_no_NUL s _ hs hr c hc
      · exact blank_ne_NUL (hw.2 c hc)
      · rw [hc]; decide
    have hhead : ∃ c t, pipeline_text s ((d1 :: v1, d2 :: v2, s1) :: r) ++ w ++ ['|']
        = c :: t ∧ plain c := ⟨c0, t0 ++ w ++ ['|'], by simp [ht0], hc0⟩
    have hlast : ∃ t c, pipeline_text s ((d1 :: v1, d2 :: v2, s1) :: r) ++ w ++ ['|']
        = t ++ [c] ∧ plain c := ⟨_, '|', rfl, by decide⟩
    have hgl : (pipeline_text s ((d1 :: v1, d2 :: v2, s1) :: r) ++ w ++ ['|']).getLast?
        = some '|' := List.getLast?_concat _
    rw [parse_aux_text alloc F1 depth _ (NUL :: after) init s.name x m hnul hhead hlast
      hs.1 hx hsplit, hgl]
    have hlen := join_tokens_length s.toks hs.2
    obtain ⟨F2, hF2⟩ : ∃ F2,
        (pipeline_text s ((d1 :: v1, d2 :: v2, s1) :: r) ++ w ++ ['|']
            ++ NUL :: NUL :: after).length + 1
          = (F2 + 1 + 1) + s.toks.length := by
      refine ⟨(pipeline_text s ((d1 :: v1, d2 :: v2, s1) :: r) ++ w ++ ['|']
        ++ NUL :: NUL :: after).length - s.toks.length - 1, ?_⟩
      simp only [pipeline_text, stage_text.text, List.length_append, List.length_cons]
      omega
    rw [hF2, ← hxm, scan_stage alloc _ depth s.toks _ (F2 + 1 + 1) _ _ hs.2 hrest]
    have hadv : advance (d1 :: v1 ++ '|' :: d2 :: v2
          ++ (pipeline_text s1 r ++ w ++ ['|'] ++ NUL :: NUL :: after))
        = v1 ++ '|' :: d2
            :: (v2 ++ (pipeline_text s1 r ++ w ++ ['|'] ++ NUL :: NUL :: after)) := by
      simp [advance, blank_ne_NUL hd1]
    rw [hadv, scan_step_pipe alloc _ depth (F2 + 1) v1 d2 _ _ _ hv1 (Or.inr hd2)]
    have hdrop : (' ' :: (v2 ++ (pipeline_text s1 r ++ w ++ ['|']
          ++ NUL :: NUL :: after))).dropWhile (fun a => a == ' ' || a == '\t')
        = pipeline_text s1 r ++ w ++ ['|'] ++ NUL :: NUL :: after := by
      have := dropWhile_blanks (' ' :: v2) c1 (t1 ++ w ++ ['|'] ++ NUL :: NUL :: after)
        (by
          intro a ha
          rcases List.mem_cons.mp ha with h | h
          · exact Or.inl h
          · exact hv2 a h) hc1
      simpa [ht1] using this
    rw [hdrop, ih s1 (depth + 1) (alloc depth) w after F1 h3 hr2 hw hF1]
    simp only []
    have hlast2 : NUL :: after = [] ++ NUL :: after := rfl
    rw [hlast2, scan_end alloc _ depth F2 [] after _ _ (by intro a ha; cases ha)]
    simp [stage_chain_dangling, stage_result, finish_stage]

/-- The function `parse_command` on a line of stages and pipes that ends with one
more `|` token and at least one blank after it. -/
theorem parse_command_line_dangling (alloc : Nat → command_t) (lead trail w : Str)
    (s : stage_text) (r : List (Str × Str × stage_text)) (tail : List Char)
    (init : command_t) (hlead : is_blanks lead) (htrail : is_sep trail) (hw : is_sep w)
    (hs : stage_ok s) (hr : pipes_ok r) :
    parse_command alloc
        (lead ++ (pipeline_text s r ++ w ++ ['|']) ++ trail ++ NUL :: tail) init
      = some (stage_chain_dangling alloc 0 init s r) := by
  obtain ⟨t0, trail1, rfl, _, _⟩ := sep_cons htrail
  obtain ⟨c0, u0, hu0, hc0⟩ := pipeline_text_head s r hs
  have hnul : ∀ c ∈ pipeline_text s r ++ w ++ ['|'], c ≠ NUL := by
    intro c hc
    simp only [List.mem_append, List.mem_singleton] at hc
    rcases hc with (hc | hc) | hc
    · exact pipeline_text_no_NUL s r hs hr c hc
    · exact blank_ne_NUL (hw.2 c hc)
    · rw [hc]; decide
  have hhead : ∃ c t, pipeline_text s r ++ w ++ ['|'] = c :: t ∧ plain c :=
    ⟨c0, u0 ++ w ++ ['|'], by simp [hu0], hc0⟩
  have hlast : ∃ t c, pipeline_text s r ++ w ++ ['|'] = t ++ [c] ∧ plain c :=
    ⟨_, '|', rfl, by decide⟩
  have hlen := pipeline_text_length s r
  unfold parse_command
  rw [parse_aux_trim alloc _ 0 lead _ (t0 :: trail1) tail init hlead htrail.2 hnul hhead
    hlast, List.length_cons, List.replicate_succ, List.cons_append,
    parse_pipeline_dangling alloc r s 0 init w _ _ hs hr hw
      (by simp only [List.length_append, List.length_cons]; omega)]
  rfl

theorem stage_at_zero (c : command_t) : stage_at c 0 = some c := by
  cases c; rfl

theorem stage_at_succ (c d : command_t) (i : Nat) (h : c.next = some d) :
    stage_at c (i + 1) = stage_at d i := by
  simp only [stage_at, h]

theorem stage_chain_dangling_name (alloc : Nat → command_t) (depth : Nat)
    (init : command_t) (s : stage_text) (r : List (Str × Str × stage_text)) :
    (stage_chain_dangling alloc depth init s r).name = s.name := by
  cases r with
  | nil => exact stage_result_name init _ s
  | cons q r =>
    obtain ⟨w1, w2, s1⟩ := q
    exact stage_result_name init _ s

/-- The stages of the chain of a line that ends with a pipe: the stage `i` has the
name of the `i`-th stage of the line. -/
theorem stage_chain_dangling_names (alloc : Nat → command_t)
    (r : List (Str × Str × stage_text)) :
    ∀ (s : stage_text) (depth : Nat) (init : command_t) (i : Nat), i ≤ r.length →
      (stage_at (stage_chain_dangling alloc depth init s r) i).map (fun e => e.name)
        = ((s :: r.map (fun q => q.2.2)).get? i).map (fun t => t.name) := by
  induction r with
  | nil =>
    intro s depth init i hi
    obtain rfl : i = 0 := by simpa using hi
    rw [stage_at_zero]
    simp [stage_chain_dangling_name]
  | cons q r ih =>
    intro s depth init i hi
    obtain ⟨w1, w2, s1⟩ := q
    cases i with
    | zero =>
      rw [stage_at_zero]
      simp [stage_chain_dangling_name]
    | succ i =>
      rw [stage_at_succ _ (stage_chain_dangling alloc (depth + 1) (alloc depth) s1 r) i rfl,
        ih s1 (depth + 1) (alloc depth) i (by simpa using hi)]
      simp

/-- The stage after the last pipe of such a line is parsed from the empty string. -/
theorem stage_chain_dangling_last (alloc : Nat → command_t)
    (r : List (Str × Str × stage_text)) :
    ∀ (s : stage_text) (depth : Nat) (init : command_t),
      stage_at (stage_chain_dangling alloc depth init s r) (r.length + 1)
        = some (empty_stage (alloc (depth + r.length))) := by
  induction r with
  | nil =>
    intro s depth init
    have h := stage_at_succ (stage_chain_dangling alloc depth init s [])
      (empty_stage (alloc depth)) 0 rfl
    simp only [List.length_nil, Nat.zero_add, Nat.add_zero] at h ⊢
    rw [h, stage_at_zero]
  | cons q r ih =>
    intro s depth init
    obtain ⟨w1, w2, s1⟩ := q
    rw [List.length_cons,
      stage_at_succ _ (stage_chain_dangling alloc (depth + 1) (alloc depth) s1 r) _ rfl,
      ih s1 (depth + 1) (alloc depth)]
    congr 3
    omega

/-! ## A token that does not fit `temp_buf` -/

theorem token_replicate (n : Nat) (c : Char) (hc : plain c) :
    is_token (List.replicate (n + 1) c) := by
  refine ⟨by simp [List.replicate_succ], fun a ha => ?_⟩
  rw [List.eq_of_mem_replicate ha]
  exact hc

theorem token_cons_plain (c : Char) (t : Str) (hc : plain c) (ht : ∀ a ∈ t, plain a) :
    is_token (c :: t) := by
  refine ⟨by simp, fun a ha => ?_⟩
  rcases List.mem_cons.mp ha with h | h
  · rw [h]; exact hc
  · exact ht a h

/-- A stage whose last token has 1024 bytes or more: the pass of the loop that
copies it writes past `temp_buf`, whatever stands before it. -/
theorem parse_command_overflow (alloc : Nat → command_t) (init : command_t)
    (name : Str) (ts : List (Str × Str)) (w t : Str) (tail : List Char)
    (hname : is_token name) (hts : stage_tokens ts) (hw : is_sep w) (ht : is_token t)
    (hl : 1024 ≤ t.length) :
    parse_command alloc (name ++ join_tokens ts ++ w ++ t ++ NUL :: tail) init = none := by
  obtain ⟨d, w1, rfl, hd, hw1⟩ := sep_cons hw
  have hs : stage_ok ⟨name, ts⟩ := ⟨hname, hts⟩
  have hrest : ∃ x m, (d :: w1 ++ t ++ NUL :: tail) = x :: m ∧ (x = NUL ∨ blank x) :=
    ⟨d, w1 ++ t ++ NUL :: tail, by simp, Or.inr hd⟩
  obtain ⟨x, m, hxm, hx⟩ := join_tokens_head ts _ hts hrest
  have hsplit : name ++ join_tokens ts ++ d :: w1 ++ t ++ NUL :: tail = name ++ x :: m := by
    rw [← hxm]
    simp
  have hnul : ∀ c ∈ name ++ join_tokens ts ++ d :: w1 ++ t, c ≠ NUL := by
    intro c hc
    simp only [List.mem_append] at hc
    rcases hc with ((hc | hc) | hc) | hc
    · exact (hname.2 c hc).2.2
    · exact join_tokens_no_NUL ts hts c hc
    · exact blank_ne_NUL (hw.2 c hc)
    · exact (ht.2 c hc).2.2
  obtain ⟨c0, t0, ht0, hc0⟩ := token_cons hname
  have hhead : ∃ c u, name ++ join_tokens ts ++ d :: w1 ++ t = c :: u ∧ plain c :=
    ⟨c0, t0 ++ join_tokens ts ++ d :: w1 ++ t, by simp [ht0], hc0⟩
  obtain ⟨t1, c1, ht1, hc1⟩ := token_concat ht
  have hlast : ∃ u c, name ++ join_tokens ts ++ d :: w1 ++ t = u ++ [c] ∧ plain c :=
    ⟨name ++ join_tokens ts ++ d :: w1 ++ t1, c1, by simp [ht1], hc1⟩
  have hlen := join_tokens_length ts hts
  unfold parse_command
  obtain ⟨F, hF⟩ : ∃ F, (name ++ join_tokens ts ++ d :: w1 ++ t ++ NUL :: tail).length + 1
      = F + 1 := ⟨_, rfl⟩
  rw [hF, parse_aux_text alloc F 0 _ tail init name x m hnul hhead hlast hname hx hsplit]
  obtain ⟨F2, hF2⟩ : ∃ F2, (name ++ join_tokens ts ++ d :: w1 ++ t ++ NUL :: tail).length + 1
      = (F2 + 1) + ts.length := by
    refine ⟨(name ++ join_tokens ts ++ d :: w1 ++ t ++ NUL :: tail).length - ts.length, ?_⟩
    simp only [List.length_append, List.length_cons]
    omega
  rw [hF2, ← hxm, scan_stage alloc _ 0 ts _ (F2 + 1) _ _ hts hrest]
  have hadv : advance (d :: w1 ++ t ++ NUL :: tail) = w1 ++ t ++ NUL :: tail := by
    simp [advance, blank_ne_NUL hd]
  rw [hadv, scan_step_overflow alloc _ 0 F2 w1 t NUL tail _ _ hw1 ht hl (Or.inl rfl)]
  rfl

/-! ## Quoted tokens -/

theorem quoted_is_token (q : Char) (body : Str) (hq : q = '"' ∨ q = '\'')
    (hb : ∀ c ∈ body, plain c) : is_token (q :: body ++ [q]) := by
  have hpq : plain q := by rcases hq with h | h <;> rw [h] <;> decide
  refine ⟨by simp, fun c hc => ?_⟩
  simp only [List.cons_append, List.mem_cons, List.mem_append, List.mem_singleton,
    List.not_mem_nil, or_false] at hc
  rcases hc with h | h | h
  · rw [h]; exact hpq
  · exact hb c h
  · rw [h]; exact hpq

theorem stage_tokens_append {ts1 ts2 : List (Str × Str)} (h1 : stage_tokens ts1)
    (h2 : stage_tokens ts2) : stage_tokens (ts1 ++ ts2) := by
  intro p hp
  rcases List.mem_append.mp hp with h | h
  · exact h1 p h
  · exact h2 p h

/-! ## One redirect token among the tokens of a stage -/

theorem scan_tokens_append (c : command_t) (a : List Str) (l1 l2 : List Str) :
    scan_tokens c a (l1 ++ l2)
      = scan_tokens (scan_tokens c a l1).1 (scan_tokens c a l1).2 l2 := by
  simp only [scan_tokens, List.foldl_append]

theorem scan_tokens_cons (c : command_t) (a : List Str) (t : Str) (l : List Str) :
    scan_tokens c a (t :: l) = scan_tokens (scan_token c a t).1 (scan_token c a t).2 l := by
  simp only [scan_tokens, List.foldl_cons]

/-- A token that selects a slot stores its path there and leaves the array alone. -/
theorem scan_token_redirect (c : command_t) (a : List Str) (t : Str) (i : Nat) (p : Str)
    (h : redirect_of t = some (i, p)) :
    scan_token c a t = ({ c with redirects := set_redirect c.redirects i p }, a) := by
  have hamp : t ≠ ['&'] := by
    intro e
    rw [e] at h
    simp [redirect_of] at h
  simp [scan_token, hamp, h]

/-- The slots after a pass depend on the slots before it alone. -/
theorem scan_token_redirects_congr (c d : command_t) (a b : List Str) (t : Str)
    (h : c.redirects = d.redirects) :
    (scan_token c a t).1.redirects = (scan_token d b t).1.redirects := by
  unfold scan_token
  split
  · exact h
  · split
    · simp only [h]
    · exact h

theorem scan_tokens_redirects_congr (ts : List Str) :
    ∀ (c d : command_t) (a b : List Str), c.redirects = d.redirects →
      (scan_tokens c a ts).1.redirects = (scan_tokens d b ts).1.redirects := by
  induction ts with
  | nil => intro c d a b h; exact h
  | cons t r ih =>
    intro c d a b h
    rw [scan_tokens_cons, scan_tokens_cons]
    exact ih _ _ _ _ (scan_token_redirects_congr c d a b t h)

/-- A store into slot `i` before a pass over a token that does not select slot `i`
is a store into slot `i` after it. -/
theorem scan_token_redirects_comm (c d : command_t) (a b : List Str) (u : Str) (i : Nat)
    (p : Str) (hi : i ≤ 2) (hu : ∀ z, redirect_of u ≠ some (i, z))
    (h : d.redirects = set_redirect c.redirects i p) :
    (scan_token d b u).1.redirects = set_redirect (scan_token c a u).1.redirects i p := by
  by_cases hamp : u = ['&']
  · simp [scan_token, hamp, h]
  · rcases redirect_of_cases u with ⟨h0, _, _⟩ | ⟨q, _, h0⟩ | ⟨q, _, _, h0⟩ | ⟨q, _, h0⟩
    · simp [scan_token, hamp, h0, h]
    · have h1 : i ≠ 0 := fun e => hu q (by rw [h0, e])
      obtain rfl | rfl : i = 1 ∨ i = 2 := by omega
      · simp [scan_token, hamp, h0, h, set_redirect]
      · simp [scan_token, hamp, h0, h, set_redirect]
    · have h1 : i ≠ 1 := fun e => hu q (by rw [h0, e])
      obtain rfl | rfl : i = 0 ∨ i = 2 := by omega
      · simp [scan_token, hamp, h0, h, set_redirect]
      · simp [scan_token, hamp, h0, h, set_redirect]
    · have h1 : i ≠ 2 := fun e => hu q (by rw [h0, e])
      obtain rfl | rfl : i = 0 ∨ i = 1 := by omega
      · simp [scan_token, hamp, h0, h, set_redirect]
      · simp [scan_token, hamp, h0, h, set_redirect]

theorem scan_tokens_redirects_comm (ts : List Str) (i : Nat) (p : Str) (hi : i ≤ 2)
    (hts : ∀ u ∈ ts, ∀ z, redirect_of u ≠ some (i, z)) :
    ∀ (c d : command_t) (a b : List Str), d.redirects = set_redirect c.redirects i p →
      (scan_tokens d b ts).1.redirects
        = set_redirect (scan_tokens c a ts).1.redirects i p := by
  induction ts with
  | nil => intro c d a b h; exact h
  | cons t r ih =>
    intro c d a b h
    rw [scan_tokens_cons, scan_tokens_cons]
    exact ih (fun u hu => hts u (List.mem_cons_of_mem _ hu)) _ _ _ _
      (scan_token_redirects_comm c d a b t i p hi (hts t (List.mem_cons_self _ _)) h)

theorem redirect_of_index (t : Str) (i : Nat) (p : Str) (h : redirect_of t = some (i, p)) :
    i ≤ 2 ∧ ¬ is_argument t ∧ t ≠ ['|'] := by
  rcases redirect_of_cases t with ⟨h0, _, _⟩ | ⟨q, ht, h0⟩ | ⟨q, ht, _, h0⟩ | ⟨q, ht, h0⟩
  · rw [h0] at h; cases h
  · rw [h0] at h
    obtain ⟨rfl, _⟩ := Prod.mk.inj (Option.some.inj h)
    subst ht
    exact ⟨by omega, by simp [is_argument], by simp⟩
  · rw [h0] at h
    obtain ⟨rfl, _⟩ := Prod.mk.inj (Option.some.inj h)
    subst ht
    exact ⟨by omega, by simp [is_argument], by simp⟩
  · rw [h0] at h
    obtain ⟨rfl, _⟩ := Prod.mk.inj (Option.some.inj h)
    subst ht
    exact ⟨by omega, by simp [is_argument], by simp⟩

/-- A stage with the token `t`, which selects slot `i` with the path `p`, among its
tokens, and no later token of the stage for slot `i`; `c0` is the result for the
same stage without `t`.  The result has `p` in slot `i`; the other slots and the
array are those of `c0`. -/
theorem parse_redirect_token (alloc : Nat → command_t) (lead trail name sep t p : Str)
    (i : Nat) (ts1 ts2 : List (Str × Str)) (tail : List Char) (init : command_t)
    (hlead : is_blanks lead) (htrail : is_blanks trail) (hname : is_token name)
    (h1 : stage_tokens ts1) (h2 : stage_tokens ts2) (hsep : is_sep sep) (ht : is_token t)
    (hl : t.length < 1024) (hred : redirect_of t = some (i, p))
    (hlater : ∀ pr ∈ ts2, ∀ z, redirect_of pr.2 ≠ some (i, z)) :
    ∃ c c0,
      parse_command alloc
          (lead ++ name ++ join_tokens (ts1 ++ (sep, t) :: ts2) ++ trail ++ NUL :: tail) init
        = some c ∧
      parse_command alloc
          (lead ++ name ++ join_tokens (ts1 ++ ts2) ++ trail ++ NUL :: tail) init = some c0 ∧
      c.redirects = set_redirect c0.redirects i p ∧ c.args = c0.args := by
  obtain ⟨hi, hnarg, hnp⟩ := redirect_of_index t i p hred
  have htok : stage_tokens [(sep, t)] := by
    intro x hx
    rw [List.mem_singleton] at hx
    subst hx
    exact ⟨hsep, ht, hnp, hl⟩
  have hs : stage_ok ⟨name, ts1 ++ (sep, t) :: ts2⟩ :=
    ⟨hname, stage_tokens_append h1 (stage_tokens_append htok h2)⟩
  have hs0 : stage_ok ⟨name, ts1 ++ ts2⟩ := ⟨hname, stage_tokens_append h1 h2⟩
  have h := parse_command_line alloc lead trail _ [] tail init hlead htrail hs
    (by intro x hx; cases hx)
  have h0 := parse_command_line alloc lead trail _ [] tail init hlead htrail hs0
    (by intro x hx; cases hx)
  simp only [pipeline_text, stage_text.text, ← List.append_assoc] at h h0
  refine ⟨_, _, h, h0, ?_, ?_⟩
  · simp only [stage_chain, stage_result, finish_stage, List.map_append, List.map_cons]
    rw [scan_tokens_append, scan_tokens_cons, scan_tokens_append]
    refine scan_tokens_redirects_comm _ i p hi ?_ _ _ _ _ ?_
    · intro u hu
      obtain ⟨pr, hpr, rfl⟩ := List.mem_map.mp hu
      exact hlater pr hpr
    · rw [scan_token_redirect _ _ t i p hred]
      simp only
      rw [scan_tokens_redirects_congr (ts1.map Prod.snd) _
        (start_stage init (name ++ join_tokens (ts1 ++ ts2)).getLast? name) _ []
        (by rw [start_stage_redirects, start_stage_redirects])]
  · have harg : decide (is_argument t) = false := decide_eq_false hnarg
    rw [stage_chain, stage_chain, stage_result_args, stage_result_args]
    simp only [List.map_append, List.map_cons, List.filter_append, List.filter_cons, harg]
    simp

/-! ## The struct of each stage of a line -/

/-- The struct of the stage `i` of a line of stages and pipes is the result for that
stage alone, on the struct it was parsed into, with some `next`. -/
theorem stage_chain_at (alloc : Nat → command_t) (last : Option Char)
    (r : List (Str × Str × stage_text)) :
    ∀ (s : stage_text) (depth : Nat) (init : command_t) (i : Nat) (st : stage_text),
      (s :: r.map (fun q => q.2.2)).get? i = some st →
      ∃ init1 nx, stage_at (stage_chain alloc last depth init s r) i
        = some { stage_result init1 last st with next := nx } := by
  induction r with
  | nil =>
    intro s depth init i st h
    cases i with
    | zero =>
      simp only [List.get?_cons_zero, Option.some.injEq] at h
      subst h
      exact ⟨init, (stage_result init last s).next, by rw [stage_at_zero]; rfl⟩
    | succ i => simp at h
  | cons q r ih =>
    intro s depth init i st h
    obtain ⟨w1, w2, s1⟩ := q
    cases i with
    | zero =>
      simp only [List.get?_cons_zero, Option.some.injEq] at h
      subst h
      exact ⟨init, _, by rw [stage_at_zero]; rfl⟩
    | succ i =>
      simp only [List.map_cons, List.get?_cons_succ] at h
      obtain ⟨init1, nx, he⟩ := ih s1 (depth + 1) (alloc depth) i st h
      exact ⟨init1, nx, by
        rw [stage_at_succ _ (stage_chain alloc last (depth + 1) (alloc depth) s1 r) i rfl,
          he]⟩

/-- The struct of every stage of a line of stages and pipes. -/
theorem parse_command_stage (alloc : Nat → command_t) (lead trail : Str) (s : stage_text)
    (r : List (Str × Str × stage_text)) (tail : List Char) (init : command_t) (i : Nat)
    (st : stage_text) (hlead : is_blanks lead) (htrail : is_blanks trail)
    (hs : stage_ok s) (hr : pipes_ok r)
    (hst : (s :: r.map (fun q => q.2.2)).get? i = some st) :
    ∃ c init1 nx,
      parse_command alloc (lead ++ pipeline_text s r ++ trail ++ NUL :: tail) init = some c ∧
      stage_at c i
        = some { stage_result init1 (pipeline_text s r).getLast? st with next := nx } := by
  obtain ⟨init1, nx, h⟩ := stage_chain_at alloc (pipeline_text s r).getLast? r s 0 init i st
    hst
  exact ⟨_, init1, nx, parse_command_line alloc lead trail s r tail init hlead htrail hs hr, h⟩

/-- The stages of a well-formed line are well formed. -/
theorem stage_ok_of_get (s : stage_text) (r : List (Str × Str × stage_text)) (i : Nat)
    (st : stage_text) (hs : stage_ok s) (hr : pipes_ok r)
    (hst : (s :: r.map (fun q => q.2.2)).get? i = some st) : stage_ok st := by
  have hmem : st ∈ s :: r.map (fun q => q.2.2) := List.get?_mem hst
  rcases List.mem_cons.mp hmem with h | h
  · rw [h]; exact hs
  · obtain ⟨q, hq, rfl⟩ := List.mem_map.mp h
    exact (hr q hq).2.2

/-- A name and one argument that fits `temp_buf`. -/
theorem parse_one_argument (alloc : Nat → command_t) (init : command_t) (name t : Str)
    (tail : List Char) (hname : is_token name) (ht : is_token t) (hl : t.length < 1024)
    (harg : is_argument t) (hp : t ≠ ['|']) (hq : strip_quotes t = t) :
    ∃ c, parse_command alloc (name ++ ' ' :: (t ++ NUL :: tail)) init = some c ∧
      c.args = [some name, some t, none] ∧ c.arg_count = 3 := by
  have hs : stage_ok ⟨name, [([' '], t)]⟩ := by
    refine ⟨hname, ?_⟩
    intro p hp1
    rw [List.mem_singleton] at hp1
    subst hp1
    exact ⟨show is_sep [' '] from by decide, ht, hp, hl⟩
  have h := parse_command_line alloc [] [] _ [] tail init (by decide) (by decide) hs
    (by decide)
  simp only [pipeline_text, stage_text.text, join_tokens, List.nil_append, List.append_nil,
    List.singleton_append, List.cons_append, List.append_assoc] at h
  refine ⟨_, h, ?_, ?_⟩
  · rw [stage_chain, stage_result_args]
    simp [harg, hq]
  · simp [stage_chain, stage_result, finish_stage, scan_tokens, scan_token_argument _ _ _ harg]

/-- A name and the token `<p`, which fits `temp_buf`. -/
theorem parse_one_redirect (alloc : Nat → command_t) (name p : Str) (tail : List Char)
    (hname : is_token name) (hp : ∀ c ∈ p, plain c) (hl : p.length + 1 < 1024) :
    ∃ c, parse_command alloc (name ++ ' ' :: '<' :: (p ++ NUL :: tail)) zero_command
        = some c ∧
      c.redirects = ⟨some p, none, none⟩ ∧ c.args = [some name, none] := by
  have hs : stage_ok ⟨name, [([' '], '<' :: p)]⟩ := by
    refine ⟨hname, ?_⟩
    intro x hx
    rw [List.mem_singleton] at hx
    subst hx
    exact ⟨show is_sep [' '] from by decide, token_cons_plain '<' p (by decide) hp,
      by simp, by simp only [List.length_cons]; omega⟩
  have h := parse_command_line alloc [] [] _ [] tail zero_command (by decide) (by decide) hs
    (by decide)
  simp only [pipeline_text, stage_text.text, join_tokens, List.nil_append, List.append_nil,
    List.singleton_append, List.cons_append, List.append_assoc] at h
  refine ⟨_, h, ?_, ?_⟩
  · simp [stage_chain, stage_result, finish_stage, scan_tokens, scan_token_in,
      start_stage_redirects, zero_command]
  · simp [stage_chain, stage_result, finish_stage, scan_tokens, scan_token_in, start_stage]

/-- C1, at the failing input: the line `e` followed by a blank and an argument of
1100 bytes `x`.  The copy `strcpy(arg, pch)` of line 128 writes the 1101 bytes of
the argument into `temp_buf[1024]`: the call has no defined result, and no array
`[e, xx...x, NULL]` is produced.  With an argument of 1023 bytes, the longest that
fits, the array is as the claim says. -/
theorem argument_overflows_temp_buf :
    parse_command (fun _ => zero_command)
        ('e' :: ' ' :: (List.replicate 1100 'x' ++ [NUL])) zero_command = none ∧
    ∃ c, parse_command (fun _ => zero_command)
          ('e' :: ' ' :: (List.replicate 1023 'x' ++ [NUL])) zero_command = some c ∧
      c.args = [some ['e'], some (List.replicate 1023 'x'), none] ∧ c.arg_count = 3 := by
  refine ⟨parse_command_overflow (fun _ => zero_command) zero_command ['e'] [] [' ']
    (List.replicate 1100 'x') [] (by decide) (by decide) (by decide)
    (token_replicate 1099 'x' (by decide)) (by rw [List.length_replicate]; omega), ?_⟩
  have hne : ∀ (u : Str), u.length = 1 → List.replicate 1023 'x' ≠ u := by
    intro u hu h
    have := congrArg List.length h
    rw [List.length_replicate, hu] at this
    exact absurd this (by decide)
  have hhead : (List.replicate 1023 'x').head? = some 'x' := by
    rw [List.replicate_succ]; rfl
  exact parse_one_argument (fun _ => zero_command) zero_command ['e']
    (List.replicate 1023 'x') [] (by decide) (token_replicate 1022 'x' (by decide))
    (by rw [List.length_replicate]; omega)
    ⟨hne _ rfl, by rw [hhead]; decide, by rw [hhead]; decide⟩ (hne _ rfl)
    (by
      unfold strip_quotes
      rw [if_neg]
      rw [hhead]
      rintro ⟨_, ⟨h, _⟩ | ⟨h, _⟩⟩
      · exact absurd h (by decide)
      · exact absurd h (by decide))

/-- C2, at the failing input: the line `a | b` when the block `malloc` returns for
the second stage holds a non-null `next`.  `parse_command` never writes that field
for the last stage, so the chain goes on after `b`. -/
theorem pipe_chain_uninitialised_next :
    ∃ c, parse_command
          (fun _ => { zero_command with next := some { zero_command with name := "old".toList } })
          (buffer "a | b" []) zero_command = some c ∧
      (chain c).map (fun n => n.name) = ["a".toList, "b".toList, "old".toList] ∧
      (chain c).length ≠ 2 :=
  ⟨_, rfl, by decide, by decide⟩

/-- Where the struct and the blocks of `malloc` start with a null `next`, a line of
`k` stages joined by `|` tokens, each token after the first of a stage shorter than
1024 bytes, gives a chain of exactly `k` structs; the struct of
stage `i` has the first token of the stage as its name, and `args` holds the name,
the argument tokens of that stage alone (each after `strip_quotes`) and a null
slot. -/
theorem pipe_chain_of_stages (alloc : Nat → command_t) (lead trail : Str) (s : stage_text)
    (r : List (Str × Str × stage_text)) (tail : List Char) (init : command_t)
    (hlead : is_blanks lead) (htrail : is_blanks trail) (hs : stage_ok s)
    (hr : pipes_ok r) (hinit : init.next = none) (halloc : ∀ d, (alloc d).next = none) :
    ∃ c, parse_command alloc (lead ++ pipeline_text s r ++ trail ++ NUL :: tail) init
        = some c ∧
      (chain c).length = r.length + 1 ∧
      (chain c).map (fun n => (n.name, n.args))
        = (s :: r.map (fun q => q.2.2)).map (fun st => (st.name, some st.name ::
            (((st.toks.map Prod.snd).filter (fun t => decide (is_argument t))).map
              (fun t => some (strip_quotes t)) ++ [none]))) := by
  have h := stage_chain_stages alloc (pipeline_text s r).getLast? halloc r s 0 init hinit
  refine ⟨_, parse_command_line alloc lead trail s r tail init hlead htrail hs hr, ?_, h⟩
  have := congrArg List.length h
  simpa using this

/-- The chain of `a x | b "y" | c` parsed into the zeroed struct, with zeroed blocks
for the later stages. -/
theorem pipe_chain_of_stages_witness :
    ∃ c, parse_command (fun _ => zero_command)
          ([] ++ pipeline_text ⟨"a".toList, [(" ".toList, "x".toList)]⟩
              [(" ".toList, " ".toList, ⟨"b".toList, [(" ".toList, "\"y\"".toList)]⟩),
                (" ".toList, " ".toList, ⟨"c".toList, []⟩)]
            ++ [] ++ NUL :: [])
          zero_command = some c ∧
      (chain c).length = 2 + 1 ∧
      (chain c).map (fun n => (n.name, n.args))
        = [("a".toList, [some "a".toList, some "x".toList, none]),
            ("b".toList, [some "b".toList, some "y".toList, none]),
            ("c".toList, [some "c".toList, none])] :=
  pipe_chain_of_stages (fun _ => zero_command) [] []
    ⟨"a".toList, [(" ".toList, "x".toList)]⟩
    [(" ".toList, " ".toList, ⟨"b".toList, [(" ".toList, "\"y\"".toList)]⟩),
      (" ".toList, " ".toList, ⟨"c".toList, []⟩)] [] zero_command (by decide) (by decide)
    (by decide) (by decide) rfl (fun _ => rfl)

/-- C5, at the failing input: the line `e` followed by a blank and the token `<`
with a path of 1100 bytes `x`.  The copy `strcpy(arg, pch)` of line 128 writes the
1102 bytes of the token into `temp_buf[1024]`: the call has no defined result, and
no struct with `redirects[0]` set to the path is produced.  With a path of 1022
bytes, the longest for which the token fits, `redirects[0]` is the path. -/
theorem redirect_path_overflows_temp_buf :
    parse_command (fun _ => zero_command)
        ('e' :: ' ' :: '<' :: (List.replicate 1100 'x' ++ [NUL])) zero_command = none ∧
    ∃ c, parse_command (fun _ => zero_command)
          ('e' :: ' ' :: '<' :: (List.replicate 1022 'x' ++ [NUL])) zero_command = some c ∧
      c.redirects = ⟨some (List.replicate 1022 'x'), none, none⟩ ∧
      c.args = [some ['e'], none] :=
  ⟨parse_command_overflow (fun _ => zero_command) zero_command ['e'] [] [' ']
      ('<' :: List.replicate 1100 'x') [] (by decide) (by decide) (by decide)
      (token_cons_plain '<' _ (by decide) (token_replicate 1099 'x' (by decide)).2)
      (by rw [List.length_cons, List.length_replicate]; omega),
    parse_one_redirect (fun _ => zero_command) ['e'] (List.replicate 1022 'x') []
      (by decide) (token_replicate 1021 'x' (by decide)).2
      (by rw [List.length_replicate]; omega)⟩

theorem scan_tokens_background (c : command_t) (a : List Str) (ts : List Str) :
    (scan_tokens c a ts).1.background = c.background := by
  induction ts generalizing c a with
  | nil => rfl
  | cons t r ih =>
    have := ih (scan_token c a t).1 (scan_token c a t).2
    simp only [scan_tokens, List.foldl_cons] at this ⊢
    rw [this, scan_token_background]

theorem stage_result_background (init : command_t) (last : Option Char) (s : stage_text) :
    (stage_result init last s).background
      = if last = some '&' then true else init.background := by
  rw [← start_stage_background init last s.name]
  simp only [stage_result, finish_stage]
  exact scan_tokens_background _ _ _

/-- On a line that ends with `&`, the struct of every stage gets `background`. -/
theorem stage_chain_background (alloc : Nat → command_t)
    (r : List (Str × Str × stage_text)) :
    ∀ (s : stage_text) (depth : Nat) (init : command_t),
      ((chain (stage_chain alloc (some '&') depth init s r)).take (r.length + 1)).map
          (fun c => c.background)
        = List.replicate (r.length + 1) true := by
  induction r with
  | nil =>
    intro s depth init
    simp [chain_head, stage_chain, stage_result_background]
  | cons q r ih =>
    intro s depth init
    obtain ⟨w1, w2, s1⟩ := q
    rw [stage_chain, chain_cons _ _ rfl]
    simp only [List.length_cons, List.take_succ_cons, List.map_cons, List.replicate_succ]
    rw [ih s1 (depth + 1) (alloc depth)]
    simp [stage_result_background, List.replicate_succ]

theorem stage_chain_first_background (alloc : Nat → command_t) (last : Option Char)
    (depth : Nat) (init : command_t) (s : stage_text)
    (r : List (Str × Str × stage_text)) :
    (stage_chain alloc last depth init s r).background
      = if last = some '&' then true else init.background := by
  cases r with
  | nil => exact stage_result_background init last s
  | cons q r =>
    obtain ⟨w1, w2, s1⟩ := q
    exact stage_result_background init last s

/-- C6, as amended: after `parse_command` on the zeroed struct the first stage has
`background` exactly when the last byte of the line that is neither a blank nor a
tab is `&` (`sleep 5 &`: true, with `args = [sleep, 5, NULL]`); and on a line of
stages and pipes that ends with `&` the struct of every stage has `background`, not
just the first.  The first part holds whenever `parse_command` returns; it returns
on every line of stages and pipes in which each token after the first of a stage
has fewer than 1024 bytes (`stage_ok`, `pipes_ok`). -/
theorem background_of_line (alloc : Nat → command_t) :
    (∀ (line : Str) (tail : List Char) (c : command_t), (∀ ch ∈ line, ch ≠ NUL) →
      parse_command alloc (line ++ NUL :: tail) zero_command = some c →
      (c.background = true ↔
        line.reverse.find? (fun ch => !(ch == ' ' || ch == '\t')) = some '&')) ∧
    (∀ (lead trail : Str) (s : stage_text) (r : List (Str × Str × stage_text))
      (tail : List Char),
      is_blanks lead → is_blanks trail → stage_ok s → pipes_ok r →
      ∃ c, parse_command alloc (lead ++ pipeline_text s r ++ trail ++ NUL :: tail)
            zero_command = some c ∧
        (c.background = true ↔ (pipeline_text s r).getLast? = some '&') ∧
        ((pipeline_text s r).getLast? = some '&' →
          ((chain c).take (r.length + 1)).map (fun n => n.background)
            = List.replicate (r.length + 1) true)) ∧
    (∃ c, parse_command alloc (buffer "sleep 5 &" []) zero_command = some c ∧
      c.background = true ∧
      c.args = [some "sleep".toList, some "5".toList, none]) := by
  refine ⟨?_, ?_, ?_⟩
  · intro line tail c hline h
    unfold parse_command at h
    obtain ⟨⟨c1, p⟩, ha, hc⟩ := Option.map_eq_some'.mp h
    simp only at hc
    subst hc
    rw [parse_aux_background alloc _ 0 line tail zero_command c1 p hline ha,
      ← trimmed_last line hline]
    simp [zero_command]
  · intro lead trail s r tail hlead htrail hs hr
    refine ⟨_, parse_command_line alloc lead trail s r tail zero_command hlead htrail hs hr,
      ?_, ?_⟩
    · rw [stage_chain_first_background]
      simp [zero_command]
    · intro hlast
      rw [hlast]
      exact stage_chain_background alloc r s 0 zero_command
  · have h := parse_command_line alloc [] [] ⟨"sleep".toList, [(" ".toList, "5".toList),
      (" ".toList, "&".toList)]⟩ [] [] zero_command (by decide) (by decide) (by decide)
      (by decide)
    refine ⟨_, h, ?_, ?_⟩
    · rw [stage_chain, stage_result_background]
      decide
    · rfl

/-- C6 as amended, at the lines `ls &` and `a | b &`. -/
theorem background_of_line_witness :
    ((∃ c, parse_command (fun _ => zero_command) ("ls &".toList ++ NUL :: []) zero_command
        = some c) ∧
      ∀ c, parse_command (fun _ => zero_command) ("ls &".toList ++ NUL :: []) zero_command
          = some c →
        (c.background = true ↔
          "ls &".toList.reverse.find? (fun ch => !(ch == ' ' || ch == '\t')) = some '&')) ∧
    (∃ c, parse_command (fun _ => zero_command)
          ([] ++ pipeline_text ⟨"a".toList, []⟩
              [(" ".toList, " ".toList, ⟨"b".toList, [(" ".toList, "&".toList)]⟩)]
            ++ [] ++ NUL :: []) zero_command
        = some c ∧
      (c.background = true ↔
        (pipeline_text ⟨"a".toList, []⟩
          [(" ".toList, " ".toList, ⟨"b".toList, [(" ".toList, "&".toList)]⟩)]).getLast?
          = some '&') ∧
      ((pipeline_text ⟨"a".toList, []⟩
          [(" ".toList, " ".toList, ⟨"b".toList, [(" ".toList, "&".toList)]⟩)]).getLast?
          = some '&' →
        ((chain c).take (1 + 1)).map (fun n => n.background)
          = List.replicate (1 + 1) true)) :=
  ⟨⟨⟨_, rfl⟩, fun c h =>
      (background_of_line (fun _ => zero_command)).1 "ls &".toList [] c (by decide) h⟩,
    (background_of_line (fun _ => zero_command)).2.1 [] []
      ⟨"a".toList, []⟩ [(" ".toList, " ".toList, ⟨"b".toList, [(" ".toList, "&".toList)]⟩)]
      [] (by decide) (by decide) (by decide) (by decide)⟩

/-- C6 as stated fails on `a | b &`: the second stage has `background` too. -/
theorem background_later_stage_counterexample :
    ∃ c, parse_command (fun _ => zero_command) (buffer "a | b &" []) zero_command = some c ∧
      (chain c).map (fun n => (n.name, n.background))
        = [("a".toList, true), ("b".toList, true)] :=
  ⟨_, rfl, by decide⟩

/-- C10, as amended: a line of stages and pipes whose last token is one more `|`,
followed by at least one blank before the terminator, gives the chain of its stages
followed by one more stage with the empty name and `args = [name, NULL]` (each token
after the first of a stage has fewer than 1024 bytes); two `|` tokens in a row do
not give such a stage: the second `|` is the name of the next stage, as in
`a | | b`, since the struct of every stage has the first token of the stage as its
name, whatever that token is. -/
theorem pipe_without_stage (alloc : Nat → command_t) :
    (∀ (lead trail w : Str) (s : stage_text) (r : List (Str × Str × stage_text))
      (tail : List Char) (init : command_t),
      is_blanks lead → is_sep trail → is_sep w → stage_ok s → pipes_ok r →
      ∃ c d, parse_command alloc
            (lead ++ (pipeline_text s r ++ w ++ ['|']) ++ trail ++ NUL :: tail) init
          = some c ∧
        c.name = s.name ∧
        (∀ i, i ≤ r.length →
          (stage_at c i).map (fun e => e.name)
            = ((s :: r.map (fun q => q.2.2)).get? i).map (fun t => t.name)) ∧
        stage_at c (r.length + 1) = some d ∧ d.name = [] ∧ d.args = [some [], none]) ∧
    (∀ (lead trail w1 w2 : Str) (s : stage_text) (toks : List (Str × Str))
      (r : List (Str × Str × stage_text)) (tail : List Char) (init : command_t),
      is_blanks lead → is_blanks trail → stage_ok s →
      pipes_ok ((w1, w2, ⟨['|'], toks⟩) :: r) →
      ∃ c d, parse_command alloc
            (lead ++ pipeline_text s ((w1, w2, ⟨['|'], toks⟩) :: r) ++ trail ++ NUL :: tail)
            init = some c ∧
        c.name = s.name ∧ c.next = some d ∧ d.name = ['|']) ∧
    (∀ (lead trail : Str) (s : stage_text) (r : List (Str × Str × stage_text))
      (tail : List Char) (init : command_t) (i : Nat) (st : stage_text),
      is_blanks lead → is_blanks trail → stage_ok s → pipes_ok r →
      (s :: r.map (fun q => q.2.2)).get? i = some st →
      ∃ c e, parse_command alloc (lead ++ pipeline_text s r ++ trail ++ NUL :: tail) init
          = some c ∧
        stage_at c i = some e ∧ e.name = st.name ∧ e.name ≠ []) ∧
    (∃ c d, parse_command alloc (buffer "a | | b" []) zero_command = some c ∧
      c.name = "a".toList ∧ c.next = some d ∧ d.name = "|".toList ∧
      d.args = [some "|".toList, some "b".toList, none]) := by
  refine ⟨?_, ?_, ?_, ?_⟩
  · intro lead trail w s r tail init hlead htrail hw hs hr
    exact ⟨_, _,
      parse_command_line_dangling alloc lead trail w s r tail init hlead htrail hw hs hr,
      stage_chain_dangling_name alloc 0 init s r,
      fun i hi => stage_chain_dangling_names alloc r s 0 init i hi,
      stage_chain_dangling_last alloc r s 0 init, rfl, rfl⟩
  · intro lead trail w1 w2 s toks r tail init hlead htrail hs hr
    refine ⟨_, _, parse_command_line alloc lead trail s _ tail init hlead htrail hs hr, ?_,
      rfl, ?_⟩
    · exact stage_chain_name _ _ _ _ _ _
    · exact stage_chain_name _ _ _ _ _ _
  · intro lead trail s r tail init i st hlead htrail hs hr hst
    obtain ⟨c, init1, nx, hc1, he⟩ := parse_command_stage alloc lead trail s r tail init i st
      hlead htrail hs hr hst
    have hn : (stage_result init1 (pipeline_text s r).getLast? st).name = st.name :=
      stage_result_name _ _ _
    exact ⟨c, _, hc1, he, hn, by
      show (stage_result init1 _ st).name ≠ []
      rw [hn]
      exact (stage_ok_of_get s r i st hs hr hst).1.1⟩
  · have h := parse_command_line alloc [] [] ⟨"a".toList, []⟩
      [(" ".toList, " ".toList, ⟨"|".toList, [(" ".toList, "b".toList)]⟩)] []
      zero_command (by decide) (by decide) (by decide) (by decide)
    exact ⟨_, _, h, rfl, rfl, rfl, rfl⟩

/-- C10 as amended, at the lines `a | b |` followed by one blank, and `a | | b`. -/
theorem pipe_without_stage_witness :
    (∃ c d, parse_command (fun _ => zero_command)
          ([] ++ (pipeline_text ⟨"a".toList, []⟩
                [(" ".toList, " ".toList, ⟨"b".toList, []⟩)] ++ " ".toList ++ ['|'])
            ++ " ".toList ++ NUL :: [])
          zero_command = some c ∧
      c.name = "a".toList ∧
      (∀ i, i ≤ [((" ".toList, " ".toList, ⟨"b".toList, []⟩) : Str × Str × stage_text)].length →
        (stage_at c i).map (fun e => e.name)
          = (((⟨"a".toList, []⟩ : stage_text)
              :: [((" ".toList, " ".toList, ⟨"b".toList, []⟩) : Str × Str × stage_text)].map
                (fun q => q.2.2)).get? i).map (fun t => t.name)) ∧
      stage_at c
          ([((" ".toList, " ".toList, ⟨"b".toList, []⟩) : Str × Str × stage_text)].length + 1)
        = some d ∧ d.name = [] ∧ d.args = [some [], none]) ∧
    (∃ c d, parse_command (fun _ => zero_command)
          ([] ++ pipeline_text ⟨"a".toList, []⟩
              ((" ".toList, " ".toList, ⟨['|'], [(" ".toList, "b".toList)]⟩) :: [])
            ++ [] ++ NUL :: [])
          zero_command = some c ∧
      c.name = "a".toList ∧ c.next = some d ∧ d.name = ['|']) :=
  ⟨(pipe_without_stage (fun _ => zero_command)).1 [] " ".toList " ".toList
      ⟨"a".toList, []⟩ [(" ".toList, " ".toList, ⟨"b".toList, []⟩)] [] zero_command
      (by decide) (by decide) (by decide) (by decide) (by decide),
    (pipe_without_stage (fun _ => zero_command)).2.1 [] [] " ".toList " ".toList
      ⟨"a".toList, []⟩ [(" ".toList, "b".toList)] [] [] zero_command (by decide) (by decide)
      (by decide) (by decide)⟩

/-- C10 as stated fails on `a | | b`: the chain has the stages `a` and `|`, and no
stage with the empty name. -/
theorem consecutive_pipes_counterexample :
    ∃ c, parse_command (fun _ => zero_command) (buffer "a | | b" []) zero_command = some c ∧
      (chain c).map (fun n => n.name) = ["a".toList, "|".toList] ∧
      [] ∉ (chain c).map (fun n => n.name) :=
  ⟨_, rfl, by decide, by decide⟩

/-- When `|` is the last byte before the terminator (no blank was trimmed after
it), line 148 overwrites the terminator and the next stage is parsed from the bytes
that follow it in the buffer: here the bytes `ls /tmp` left behind the line `a |`. -/
theorem pipe_at_end_reads_past_terminator :
    ∃ c d, parse_command (fun _ => zero_command) (buffer "a |" (buffer "ls /tmp" []))
          zero_command = some c ∧
      c.name = "a".toList ∧ c.next = some d ∧ d.name = "ls".toList ∧
      d.args = [some "ls".toList, some "/tmp".toList, none] :=
  ⟨_, _, rfl, rfl, rfl, rfl, rfl⟩

/-- The function `parse_command` returns on every buffer of at most 1024 bytes that
holds more terminators than `|` bytes (so on every such line without a `|`): no
read leaves the buffer, every token fits `temp_buf`, and the bounds on the loop and
on the nesting are not reached. -/
theorem parse_command_returns (alloc : Nat → command_t) (buf : List Char)
    (init : command_t) (hcap : buf.length ≤ 1024)
    (h : buf.count '|' + 1 ≤ buf.count NUL) :
    ∃ c, parse_command alloc buf init = some c := by
  obtain ⟨c, rest, hc⟩ := parse_aux_total alloc (buf.length + 1) 0 buf init
    (Nat.lt_succ_self _) hcap h
  exact ⟨c, by rw [parse_command, hc]; rfl⟩

/-- The line `ls -l >out &` in a buffer with nothing after the terminator. -/
theorem parse_command_returns_witness :
    ∃ c, parse_command (fun _ => zero_command) (buffer "ls -l >out &" []) zero_command
      = some c :=
  parse_command_returns (fun _ => zero_command) (buffer "ls -l >out &" []) zero_command
    (by decide) (by decide)

/-- For a single-stage line `name t1 ... tn` (tokens separated by blanks or tabs,
blanks allowed around the line) in which every `ti` has fewer than 1024 bytes and
no `ti` is `|` or `&` or starts with `<` or `>`, `parse_command` returns with
`args = [name, u1, ..., un, NULL]` and `arg_count = n + 2`, where `ui` is `ti`
without its first and last byte when `ti` is longer than 2 and starts and ends with
the same quote, and `ti` otherwise. -/
theorem parse_command_single_stage_args (alloc : Nat → command_t) (init : command_t)
    (lead trail name : Str) (ts : List (Str × Str)) (tail : List Char)
    (hlead : is_blanks lead) (htrail : is_blanks trail) (hname : is_token name)
    (hts : ∀ p ∈ ts, is_sep p.1 ∧ is_token p.2 ∧ p.2.length < 1024 ∧ p.2 ≠ ['|'] ∧
      p.2 ≠ ['&'] ∧ p.2.head? ≠ some '<' ∧ p.2.head? ≠ some '>') :
    ∃ c, parse_command alloc (lead ++ name ++ join_tokens ts ++ trail ++ NUL :: tail) init
        = some c ∧
      c.name = name ∧
      c.args = some name :: (ts.map (fun p => some
        (if 2 < p.2.length ∧
            ((p.2.head? = some '"' ∧ p.2.getLast? = some '"') ∨
             (p.2.head? = some '\'' ∧ p.2.getLast? = some '\'')) then
          (p.2.drop 1).dropLast
        else p.2)) ++ [none]) ∧
      c.arg_count = ts.length + 2 := by
  have hs : stage_ok ⟨name, ts⟩ :=
    ⟨hname, fun p hp => ⟨(hts p hp).1, (hts p hp).2.1, (hts p hp).2.2.2.1,
      (hts p hp).2.2.1⟩⟩
  have harg : ∀ t ∈ ts.map Prod.snd, is_argument t := by
    intro t ht
    obtain ⟨p, hp, rfl⟩ := List.mem_map.mp ht
    exact ⟨(hts p hp).2.2.2.2.1, (hts p hp).2.2.2.2.2.1, (hts p hp).2.2.2.2.2.2⟩
  have h := parse_command_line alloc lead trail ⟨name, ts⟩ [] tail init hlead htrail hs
    (by intro q hq; cases hq)
  simp only [pipeline_text, stage_text.text, ← List.append_assoc] at h
  refine ⟨_, h, ?_, ?_, ?_⟩
  · simp [stage_chain, stage_result, finish_stage, scan_tokens_arguments _ _ _ harg,
      start_stage]
  · simp only [stage_chain, stage_result, finish_stage,
      scan_tokens_arguments _ _ _ harg, start_stage, List.nil_append, List.map_map]
    refine congrArg _ (congrArg (fun l => l ++ [none]) (List.map_congr_left ?_))
    intro p _
    simp [strip_quotes_eq p.2]
  · simp [stage_chain, stage_result, finish_stage, scan_tokens_arguments _ _ _ harg]

/-- The line ` ls -l "a.txt"  'b'` followed by one blank. -/
theorem parse_command_single_stage_args_witness :
    ∃ c, parse_command (fun _ => zero_command)
          (" ".toList ++ "ls".toList
            ++ join_tokens [(" ".toList, "-l".toList), ("\t".toList, "\"a.txt\"".toList),
                (" \t".toList, "'b'".toList)]
            ++ " ".toList ++ NUL :: []) zero_command
        = some c ∧
      c.name = "ls".toList ∧
      c.args = some "ls".toList ::
        ([(" ".toList, "-l".toList), ("\t".toList, "\"a.txt\"".toList),
            (" \t".toList, "'b'".toList)].map (fun p => some
          (if 2 < p.2.length ∧
              ((p.2.head? = some '"' ∧ p.2.getLast? = some '"') ∨
               (p.2.head? = some '\'' ∧ p.2.getLast? = some '\'')) then
            (p.2.drop 1).dropLast
          else p.2)) ++ [none]) ∧
      c.arg_count = 3 + 2 :=
  parse_command_single_stage_args (fun _ => zero_command) zero_command " ".toList
    " ".toList "ls".toList
    [(" ".toList, "-l".toList), ("\t".toList, "\"a.txt\"".toList),
      (" \t".toList, "'b'".toList)] [] (by decide) (by decide) (by decide) (by decide)

/-- A redirect token of fewer than 1024 bytes after the first token of a stage, with
no redirect token after it in the stage: `parse_command` returns, and the token `<p`
leaves `p` in `redirects[0]`, `>p` (`p` not starting with `>`) in `redirects[1]` and
`>>p` in `redirects[2]`; the other two slots and the array `args` are those of the
line without the token.  `p` may be empty, so a bare `<`, `>` or `>>` stores the
empty path. -/
theorem redirect_token_sets_slot (alloc : Nat → command_t) (lead trail name sep p : Str)
    (ts1 ts2 : List (Str × Str)) (tail : List Char) (init : command_t)
    (hlead : is_blanks lead) (htrail : is_blanks trail) (hname : is_token name)
    (h1 : stage_tokens ts1) (h2 : stage_tokens ts2) (hsep : is_sep sep)
    (hp : ∀ c ∈ p, plain c) (hl : p.length + 2 < 1024)
    (hlater : ∀ pr ∈ ts2, pr.2.head? ≠ some '<' ∧ pr.2.head? ≠ some '>') :
    (∃ c c0,
      parse_command alloc
          (lead ++ name ++ join_tokens (ts1 ++ (sep, '<' :: p) :: ts2) ++ trail
            ++ NUL :: tail) init = some c ∧
      parse_command alloc
          (lead ++ name ++ join_tokens (ts1 ++ ts2) ++ trail ++ NUL :: tail) init = some c0 ∧
      c.redirects = { c0.redirects with slot0 := some p } ∧ c.args = c0.args) ∧
    (p.head? ≠ some '>' →
      ∃ c c0,
        parse_command alloc
            (lead ++ name ++ join_tokens (ts1 ++ (sep, '>' :: p) :: ts2) ++ trail
              ++ NUL :: tail) init = some c ∧
        parse_command alloc
            (lead ++ name ++ join_tokens (ts1 ++ ts2) ++ trail ++ NUL :: tail) init
          = some c0 ∧
        c.redirects = { c0.redirects with slot1 := some p } ∧ c.args = c0.args) ∧
    (∃ c c0,
      parse_command alloc
          (lead ++ name ++ join_tokens (ts1 ++ (sep, '>' :: '>' :: p) :: ts2) ++ trail
            ++ NUL :: tail) init = some c ∧
      parse_command alloc
          (lead ++ name ++ join_tokens (ts1 ++ ts2) ++ trail ++ NUL :: tail) init = some c0 ∧
      c.redirects = { c0.redirects with slot2 := some p } ∧ c.args = c0.args) := by
  have hnone : ∀ (i : Nat), ∀ pr ∈ ts2, ∀ z, redirect_of pr.2 ≠ some (i, z) := by
    intro i pr hpr z
    rw [redirect_of_argument pr.2 (hlater pr hpr).1 (hlater pr hpr).2]
    simp
  have t2 : is_token ('>' :: p) := token_cons_plain '>' p (by decide) hp
  refine ⟨?_, ?_, ?_⟩
  · exact parse_redirect_token alloc lead trail name sep ('<' :: p) p 0 ts1 ts2 tail init
      hlead htrail hname h1 h2 hsep (token_cons_plain '<' p (by decide) hp)
      (by simp only [List.length_cons]; omega) rfl (hnone 0)
  · intro hne
    have hred : redirect_of ('>' :: p) = some (1, p) := by
      cases p with
      | nil => rfl
      | cons e q =>
        have he : e ≠ '>' := by simpa using hne
        simp [redirect_of, he]
    exact parse_redirect_token alloc lead trail name sep ('>' :: p) p 1 ts1 ts2 tail init
      hlead htrail hname h1 h2 hsep t2 (by simp only [List.length_cons]; omega) hred
      (hnone 1)
  · exact parse_redirect_token alloc lead trail name sep ('>' :: '>' :: p) p 2 ts1 ts2 tail
      init hlead htrail hname h1 h2 hsep (token_cons_plain '>' _ (by decide) t2.2)
      (by simp only [List.length_cons]; omega) rfl (hnone 2)

/-- The tokens `<f`, `>f` and `>>f` between `-r` and `x` on a line that starts with
`sort`. -/
theorem redirect_token_sets_slot_witness :
    (∃ c c0,
      parse_command (fun _ => zero_command)
          ([] ++ "sort".toList
            ++ join_tokens ([(" ".toList, "-r".toList)]
                ++ (" ".toList, '<' :: "f".toList) :: [(" ".toList, "x".toList)])
            ++ [] ++ NUL :: []) zero_command = some c ∧
      parse_command (fun _ => zero_command)
          ([] ++ "sort".toList
            ++ join_tokens ([(" ".toList, "-r".toList)] ++ [(" ".toList, "x".toList)])
            ++ [] ++ NUL :: []) zero_command = some c0 ∧
      c.redirects = { c0.redirects with slot0 := some "f".toList } ∧ c.args = c0.args) ∧
    ("f".toList.head? ≠ some '>' →
      ∃ c c0,
        parse_command (fun _ => zero_command)
            ([] ++ "sort".toList
              ++ join_tokens ([(" ".toList, "-r".toList)]
                  ++ (" ".toList, '>' :: "f".toList) :: [(" ".toList, "x".toList)])
              ++ [] ++ NUL :: []) zero_command = some c ∧
        parse_command (fun _ => zero_command)
            ([] ++ "sort".toList
              ++ join_tokens ([(" ".toList, "-r".toList)] ++ [(" ".toList, "x".toList)])
              ++ [] ++ NUL :: []) zero_command = some c0 ∧
        c.redirects = { c0.redirects with slot1 := some "f".toList } ∧ c.args = c0.args) ∧
    (∃ c c0,
      parse_command (fun _ => zero_command)
          ([] ++ "sort".toList
            ++ join_tokens ([(" ".toList, "-r".toList)]
                ++ (" ".toList, '>' :: '>' :: "f".toList) :: [(" ".toList, "x".toList)])
            ++ [] ++ NUL :: []) zero_command = some c ∧
      parse_command (fun _ => zero_command)
          ([] ++ "sort".toList
            ++ join_tokens ([(" ".toList, "-r".toList)] ++ [(" ".toList, "x".toList)])
            ++ [] ++ NUL :: []) zero_command = some c0 ∧
      c.redirects = { c0.redirects with slot2 := some "f".toList } ∧ c.args = c0.args) :=
  redirect_token_sets_slot (fun _ => zero_command) [] [] "sort".toList " ".toList
    "f".toList [(" ".toList, "-r".toList)] [(" ".toList, "x".toList)] [] zero_command
    (by decide) (by decide) (by decide) (by decide) (by decide) (by decide) (by decide)
    (by decide) (by decide)

end Shellish
